import Mathlib

set_option maxRecDepth 8192

/-!
Verification of the streaming LLM action-protocol orchestrator of the
virtualasistant backend against its natural-language specification.

The Python sources embedded here (shallowly, over lists of characters):
  - backend/assistant/services/ollama_client.py
      (_normalize_llm_action_json, parse_action, strip_action_line,
       stream_ollama_chat, handle_user_message)
  - backend/assistant/views.py (the SSE event_stream generator)
  - backend/assistant/services/web_search_service.py
      (search_web, search_web_fallback, the module-level result cache)
  - backend/assistant/services/prompt_cache.py
      (get_base_system_prompt_cached, get_user_context_cached,
       get_relevant_memories_cached)

Strings are modelled as List Char.  Python exceptions are modelled with an
explicit Except layer (PyExc); the code under test catches exceptions with
explicit handler branches mirroring the try/except structure of the source.
json.loads is modelled by an executable recursive-descent JSON reader
(jsonLoads below); numbers are modelled as integers, which covers every
payload appearing in the analyzed properties.
-/

set_option autoImplicit false

namespace VA

/-- Python exception classes relevant to the embedded code.
json.JSONDecodeError is a subclass of ValueError in Python; we keep them
as separate constructors and catch both where the source catches either. -/
inductive PyExc where
  | jsonDecodeError
  | valueError
  | attrError
  | otherError
  deriving DecidableEq, Repr

/-! ### Python string primitives over List Char -/

/-- Whitespace set of Python str.strip() (and of the regex class \s). -/
def isPyWs (c : Char) : Bool :=
  c = ' ' || c = '\t' || c = '\n' || c = '\r' || c = '\x0b' || c = '\x0c'

/-- Character-wise model of Python str.upper() on the alphabet that occurs
in the analyzed code (ASCII plus the Portuguese letters of the markers). -/
def upperChar (c : Char) : Char :=
  if c = 'ç' then 'Ç' else if c = 'ã' then 'Ã'
  else if c = 'á' then 'Á' else if c = 'à' then 'À' else if c = 'â' then 'Â'
  else if c = 'é' then 'É' else if c = 'ê' then 'Ê'
  else if c = 'í' then 'Í' else if c = 'ó' then 'Ó' else if c = 'ô' then 'Ô'
  else if c = 'õ' then 'Õ' else if c = 'ú' then 'Ú'
  else c.toUpper

/-- Character-wise model of Python str.lower() on the same alphabet. -/
def lowerChar (c : Char) : Char :=
  if c = 'Ç' then 'ç' else if c = 'Ã' then 'ã'
  else if c = 'Á' then 'á' else if c = 'À' then 'à' else if c = 'Â' then 'â'
  else if c = 'É' then 'é' else if c = 'Ê' then 'ê'
  else if c = 'Í' then 'í' else if c = 'Ó' then 'ó' else if c = 'Ô' then 'ô'
  else if c = 'Õ' then 'õ' else if c = 'Ú' then 'ú'
  else c.toLower

def pyUpper (s : List Char) : List Char := s.map upperChar

def pyLower (s : List Char) : List Char := s.map lowerChar

/-- Left part of Python str.strip(). -/
def pyStripL : List Char → List Char
  | [] => []
  | c :: rest => if isPyWs c then pyStripL rest else c :: rest

/-- Right part of Python str.strip(). -/
def pyStripR : List Char → List Char
  | [] => []
  | c :: rest =>
    let r := pyStripR rest
    if r = [] && isPyWs c then [] else c :: r

/-- Python str.strip(). -/
def pyStrip (s : List Char) : List Char := pyStripR (pyStripL s)

/-- Python str.startswith for character lists. -/
def startsWithL : List Char → List Char → Bool
  | [], _ => true
  | _ :: _, [] => false
  | p :: ps, c :: cs => p = c && startsWithL ps cs

/-- Index of the first occurrence of pat in s (Python str.find / str.index). -/
def indexOfSub? (pat : List Char) : List Char → Option Nat
  | [] => if startsWithL pat [] then some 0 else none
  | c :: rest =>
    if startsWithL pat (c :: rest) then some 0
    else Option.map (· + 1) (indexOfSub? pat rest)

/-- Python substring containment (the in operator on str). -/
def containsSub (pat s : List Char) : Bool := (indexOfSub? pat s).isSome

/-- Split on the newline character (Python str.split of a single separator,
restricted to the "\n" separator used by strip_action_line). -/
def splitNL : List Char → List (List Char)
  | [] => [[]]
  | c :: rest =>
    if c = '\n' then [] :: splitNL rest
    else
      match splitNL rest with
      | [] => [[c]]
      | h :: t => (c :: h) :: t

/-- Python "\n".join. -/
def joinNL : List (List Char) → List Char
  | [] => []
  | [x] => x
  | x :: xs => x ++ '\n' :: joinNL xs

/-- Python str.replace(pat, rep) - global, left-to-right, non-overlapping.
The first argument is fuel (the input length suffices for nonempty pat). -/
def replaceAllGo (pat rep : List Char) : Nat → List Char → List Char
  | 0, s => s
  | _ + 1, [] => []
  | f + 1, c :: rest =>
    if startsWithL pat (c :: rest) then
      rep ++ replaceAllGo pat rep f ((c :: rest).drop pat.length)
    else
      c :: replaceAllGo pat rep f rest

def replaceAll (pat rep s : List Char) : List Char := replaceAllGo pat rep s.length s

/-- Python s.split(pat)[1]: the segment strictly between the first and the
second occurrence of pat (or to the end when pat occurs only once).
Callers in the source guard this with (pat in s). -/
def segAfterFirst (pat s : List Char) : List Char :=
  match indexOfSub? pat s with
  | none => []
  | some i =>
    let t := s.drop (i + pat.length)
    match indexOfSub? pat t with
    | none => t
    | some j => t.take j

/-! ### JSON values and a model of json.loads -/

/-- JSON values as produced by json.loads.  Object keys keep insertion order
with a later duplicate key overwriting the value in place, matching Python
dict construction.  Numbers are modelled as integers (no analyzed payload
contains a fractional number). -/
inductive Json where
  | null
  | bool (b : Bool)
  | num (n : Int)
  | str (s : List Char)
  | arr (xs : List Json)
  | obj (kvs : List (List Char × Json))

/-- Python dict insertion: overwrite the value of an existing key in place,
otherwise append the new pair. -/
def objInsert (kvs : List (List Char × Json)) (k : List Char) (v : Json) :
    List (List Char × Json) :=
  match kvs with
  | [] => [(k, v)]
  | (k0, v0) :: rest =>
    if k0 = k then (k0, v) :: rest else (k0, v0) :: objInsert rest k v

/-- Dict key lookup (dict.get); none when the value is not a JSON object. -/
def jLookup (j : Json) (k : List Char) : Option Json :=
  match j with
  | .obj kvs => go kvs
  | _ => none
where
  go : List (List Char × Json) → Option Json
    | [] => none
    | (k0, v) :: rest => if k0 = k then some v else go rest

/-- JSON whitespace skipped by the decoder. -/
def isJsonWs (c : Char) : Bool := c = ' ' || c = '\t' || c = '\n' || c = '\r'

def skipWs : List Char → List Char
  | [] => []
  | c :: rest => if isJsonWs c then skipWs rest else c :: rest

/-- Single-character escape values of JSON strings. -/
def escChar (c : Char) : Option Char :=
  if c = '"' then some '"' else if c = '\\' then some '\\'
  else if c = '/' then some '/'
  else if c = 'b' then some '\x08' else if c = 'f' then some '\x0c'
  else if c = 'n' then some '\n' else if c = 'r' then some '\r'
  else if c = 't' then some '\t' else none

def hexVal (c : Char) : Option Nat :=
  if '0' ≤ c ∧ c ≤ '9' then some (c.toNat - '0'.toNat)
  else if 'a' ≤ c ∧ c ≤ 'f' then some (c.toNat - 'a'.toNat + 10)
  else if 'A' ≤ c ∧ c ≤ 'F' then some (c.toNat - 'A'.toNat + 10)
  else none

/-- Body of a JSON string literal, after the opening quote.  Python's
json.loads (strict mode) rejects raw control characters inside strings. -/
def parseStr : List Char → Option (List Char × List Char)
  | [] => none
  | c :: rest =>
    if c = '"' then some ([], rest)
    else if c = '\\' then
      match rest with
      | [] => none
      | e :: rest2 =>
        if e = 'u' then
          match rest2 with
          | h1 :: h2 :: h3 :: h4 :: rest3 =>
            match hexVal h1, hexVal h2, hexVal h3, hexVal h4 with
            | some a, some b, some cc, some d =>
              (parseStr rest3).map
                (fun p => (Char.ofNat (((a * 16 + b) * 16 + cc) * 16 + d) :: p.1, p.2))
            | _, _, _, _ => none
          | _ => none
        else
          match escChar e with
          | some d => (parseStr rest2).map (fun p => (d :: p.1, p.2))
          | none => none
    else if c.toNat < 32 then none
    else (parseStr rest).map (fun p => (c :: p.1, p.2))

def isDigitC (c : Char) : Bool := '0' ≤ c && c ≤ '9'

def digitsVal : List Char → Nat → Nat
  | [], acc => acc
  | c :: rest, acc => digitsVal rest (acc * 10 + (c.toNat - '0'.toNat))

/-- Integer literal (optional minus sign, decimal digits). -/
def parseNum : List Char → Option (Int × List Char)
  | s =>
    let (neg, s1) :=
      match s with
      | '-' :: rest => (true, rest)
      | _ => (false, s)
    let ds := s1.takeWhile isDigitC
    let rest := s1.dropWhile isDigitC
    if ds = [] then none
    else
      let v : Int := Int.ofNat (digitsVal ds 0)
      some (if neg then -v else v, rest)

mutual

/-- JSON value, fuel-indexed.  Fuel is consumed at each nesting step and at
each object-member / array-item step; input length + 1 always suffices. -/
def parseValue : Nat → List Char → Option (Json × List Char)
  | 0, _ => none
  | fuel + 1, s =>
    match s with
    | [] => none
    | c :: rest =>
      if c = '{' then
        match skipWs rest with
        | '}' :: r => some (.obj [], r)
        | s1 => parseMembers fuel s1 []
      else if c = '[' then
        match skipWs rest with
        | ']' :: r => some (.arr [], r)
        | s1 => parseItems fuel s1 []
      else if c = '"' then
        (parseStr rest).map (fun p => (.str p.1, p.2))
      else if startsWithL ['t', 'r', 'u', 'e'] (c :: rest) then
        some (.bool true, (c :: rest).drop 4)
      else if startsWithL ['f', 'a', 'l', 's', 'e'] (c :: rest) then
        some (.bool false, (c :: rest).drop 5)
      else if startsWithL ['n', 'u', 'l', 'l'] (c :: rest) then
        some (.null, (c :: rest).drop 4)
      else
        (parseNum (c :: rest)).map (fun p => (.num p.1, p.2))

/-- Members of a JSON object after the opening brace (nonempty case). -/
def parseMembers : Nat → List Char → List (List Char × Json) →
    Option (Json × List Char)
  | 0, _, _ => none
  | fuel + 1, s, acc =>
    match s with
    | '"' :: rest =>
      match parseStr rest with
      | some (key, r1) =>
        match skipWs r1 with
        | ':' :: r2 =>
          match parseValue fuel (skipWs r2) with
          | some (v, r3) =>
            let acc2 := objInsert acc key v
            match skipWs r3 with
            | ',' :: r4 => parseMembers fuel (skipWs r4) acc2
            | '}' :: r4 => some (.obj acc2, r4)
            | _ => none
          | none => none
        | _ => none
      | none => none
    | _ => none

/-- Items of a JSON array after the opening bracket (nonempty case). -/
def parseItems : Nat → List Char → List Json → Option (Json × List Char)
  | 0, _, _ => none
  | fuel + 1, s, acc =>
    match parseValue fuel s with
    | some (v, r1) =>
      match skipWs r1 with
      | ',' :: r2 => parseItems fuel (skipWs r2) (acc ++ [v])
      | ']' :: r2 => some (.arr (acc ++ [v]), r2)
      | _ => none
    | none => none

end

/-- Model of json.loads: a full JSON document; trailing non-whitespace is an
error (Extra data), any failure is a JSONDecodeError. -/
def jsonLoads (s : List Char) : Except PyExc Json :=
  match parseValue (s.length + 1) (skipWs s) with
  | some (j, rest) =>
    if skipWs rest = [] then .ok j else .error .jsonDecodeError
  | none => .error .jsonDecodeError

/-! ### _normalize_llm_action_json (ollama_client.py lines 15-60)

Collapses doubled braces outside of string literals; a backslash always
escapes the following character; a quote always toggles the in-string flag
(both unconditionally, exactly as in the source loop). -/

def normGo : List Char → Bool → Bool → List Char
  | [], _, _ => []
  | [c], _, _ => [c]
  | c1 :: c2 :: rest, inString, escapeNext =>
    if escapeNext then c1 :: normGo (c2 :: rest) inString false
    else if c1 = '\\' then c1 :: normGo (c2 :: rest) inString true
    else if c1 = '"' then c1 :: normGo (c2 :: rest) (!inString) escapeNext
    else if !inString && c1 = '{' && c2 = '{' then '{' :: normGo rest inString escapeNext
    else if !inString && c1 = '}' && c2 = '}' then '}' :: normGo rest inString escapeNext
    else c1 :: normGo (c2 :: rest) inString escapeNext

/-- _normalize_llm_action_json. -/
def normalize_llm_action_json (text : List Char) : List Char := normGo text false false

/-! ### The brace-balance scans of parse_action

The ACTION: branch (lines 647-669) tracks string literals and escapes; the
localized branch (lines 717-726) counts every brace.  Both are folds over a
small machine state; the fold step is the identity once the Python loop has
executed its break (out is set). -/

structure BrState where
  cnt : Int
  inString : Bool
  escapeNext : Bool
  idx : Nat
  out : Option Nat
  deriving Repr

def awareStep (st : BrState) (c : Char) : BrState :=
  if st.out.isSome then st
  else if st.escapeNext then { st with escapeNext := false, idx := st.idx + 1 }
  else if c = '\\' then { st with escapeNext := true, idx := st.idx + 1 }
  else if c = '"' then { st with inString := !st.inString, idx := st.idx + 1 }
  else if !st.inString && c = '{' then { st with cnt := st.cnt + 1, idx := st.idx + 1 }
  else if !st.inString && c = '}' then
    if st.cnt = 1 then { st with cnt := 0, idx := st.idx + 1, out := some (st.idx + 1) }
    else { st with cnt := st.cnt - 1, idx := st.idx + 1 }
  else { st with idx := st.idx + 1 }

def naiveStep (st : BrState) (c : Char) : BrState :=
  if st.out.isSome then st
  else if c = '{' then { st with cnt := st.cnt + 1, idx := st.idx + 1 }
  else if c = '}' then
    if st.cnt = 1 then { st with cnt := 0, idx := st.idx + 1, out := some (st.idx + 1) }
    else { st with cnt := st.cnt - 1, idx := st.idx + 1 }
  else { st with idx := st.idx + 1 }

def initBr : BrState := ⟨0, false, false, 0, none⟩

/-- json_end as computed by the string-aware loop of the ACTION: branch
(0 when the braces never balance, as initialized in the source). -/
def scanAware (s : List Char) : Nat := ((s.foldl awareStep initBr).out).getD 0

/-- json_end as computed by the brace-naive loop of the localized branch. -/
def scanNaive (s : List Char) : Nat := ((s.foldl naiveStep initBr).out).getD 0

/-! ### parse_action (ollama_client.py lines 607-743) -/

def actionM : List Char := ['A', 'C', 'T', 'I', 'O', 'N', ':']

def acaoM : List Char := ['A', 'Ç', 'Ã', 'O', ':']

def acaoAsciiM : List Char := ['A', 'C', 'A', 'O', ':']

/-- The two-attempt parse of the extracted JSON span: a raw json.loads, and
on JSONDecodeError a reparse of the brace-normalized span (lines 674-689 and
729-738).  A failure of the second attempt is raised to the caller. -/
def tryParse2 (s : List Char) : Except PyExc Json :=
  match jsonLoads s with
  | .ok p => .ok p
  | .error _ => jsonLoads (normalize_llm_action_json s)

/-- Return of a successfully parsed span, or propagation of the exception
raised by the failing second attempt. -/
def wrapParsed (x : Except PyExc Json) : Except PyExc (Option Json) :=
  match x with
  | .ok p => .ok (some p)
  | .error e => .error e

/-- The double-brace fix at the very start of the extracted part
(lines 636-638 and 713-714). -/
def fixLeadBraces (ap0 : List Char) : List Char :=
  if startsWithL ['{', '{'] ap0 then '{' :: ap0.drop 2 else ap0

/-- Common tail of both marker branches: the startswith check, the brace
scan, the span cut, and the two-attempt parse. -/
def branchCore (scan : List Char → Nat) (ap : List Char) :
    Except PyExc (Option Json) :=
  if startsWithL ['{'] ap then
    let jsonEnd := scan ap
    if 0 < jsonEnd then wrapParsed (tryParse2 (ap.take jsonEnd))
    else .ok none
  else .ok none

/-- Body of the try-block of the ACTION: branch (lines 627-694).
Precondition (guarded by the caller): actionM occurs in textUpper. -/
def actionBranchBody (text textUpper : List Char) : Except PyExc (Option Json) :=
  let actionStart := (indexOfSub? actionM textUpper).getD 0
  branchCore scanAware (fixLeadBraces (pyStrip (text.drop (actionStart + 7))))

/-- Body of the try-block of the localized branch (lines 701-738).
Precondition: acaoM or acaoAsciiM occurs in textUpper. -/
def acaoBranchBody (text textUpper : List Char) : Except PyExc (Option Json) :=
  let actionStart :=
    if containsSub acaoM textUpper then (indexOfSub? acaoM textUpper).getD 0
    else (indexOfSub? acaoAsciiM textUpper).getD 0
  branchCore scanNaive (fixLeadBraces (pyStrip (text.drop (actionStart + 5))))

/-- parse_action with the exception layer explicit.  The ACTION: branch
catches (json.JSONDecodeError, ValueError) and also Exception, so every
raised exception yields None; the localized branch catches only
(json.JSONDecodeError, ValueError) and anything else propagates. -/
def parse_action_exc (text : List Char) : Except PyExc (Option Json) :=
  let textUpper := pyUpper text
  if containsSub actionM textUpper then
    match actionBranchBody text textUpper with
    | .ok r => .ok r
    | .error _ => .ok none
  else if containsSub acaoM textUpper || containsSub acaoAsciiM textUpper then
    match acaoBranchBody text textUpper with
    | .ok r => .ok r
    | .error .jsonDecodeError => .ok none
    | .error .valueError => .ok none
    | .error e => .error e
  else .ok none

/-- parse_action as observed by callers (an uncaught exception would abort
the caller; C10 proves none occurs). -/
def parse_action (text : List Char) : Option Json :=
  match parse_action_exc text with
  | .ok r => r
  | .error _ => none

/-! ### strip_action_line (ollama_client.py lines 746-764) -/

/-- Drop up to (and excluding) the next newline: the regex fragment .*$ in
MULTILINE mode consumes the rest of the current line only. -/
def dropToNL : List Char → List Char
  | [] => []
  | c :: rest => if c = '\n' then c :: rest else dropToNL rest

/-- A match of the pattern \s*(ACTION|AÇÃO): starts at this position when
the maximal whitespace run from here is followed by one of the markers
(case-insensitively); the markers begin with a non-whitespace character, so
this is equivalent to the regex's backtracking search. -/
def markerAfterWs (s : List Char) : Bool :=
  let t := s.dropWhile isPyWs
  startsWithL actionM (pyUpper (t.take 7)) || startsWithL acaoM (pyUpper (t.take 5))

/-- Consumed portion of one regex match: the whitespace run, the marker, and
the rest of the line; returns the remainder of the input. -/
def afterMatch (s : List Char) : List Char :=
  let t := s.dropWhile isPyWs
  if startsWithL actionM (pyUpper (t.take 7)) then dropToNL (t.drop 7)
  else dropToNL (t.drop 5)

/-- re.sub of the pattern \s*(ACTION|AÇÃO):.*$ with IGNORECASE and
MULTILINE, replacing with the empty string; fuel-indexed scan (the input
length suffices since a match consumes at least the marker). -/
def reSubGo : Nat → List Char → List Char
  | 0, s => s
  | _ + 1, [] => []
  | f + 1, c :: rest =>
    if markerAfterWs (c :: rest) then reSubGo f (afterMatch (c :: rest))
    else c :: reSubGo f rest

def reSubMarkers (s : List Char) : List Char := reSubGo s.length s

/-- Line filter of strip_action_line: a line is removed when its stripped
uppercase form starts with ACTION: or AÇÃO: (the ASCII spelling ACAO: is
not checked by the source). -/
def keepLine (line : List Char) : Bool :=
  !(startsWithL actionM (pyUpper (pyStrip line)) ||
    startsWithL acaoM (pyUpper (pyStrip line)))

/-- strip_action_line. -/
def strip_action_line (text : List Char) : List Char :=
  let lines := splitNL (pyStrip text)
  let filtered := lines.filter keepLine
  let result := pyStrip (joinNL filtered)
  let result :=
    if containsSub actionM (pyUpper result) || containsSub acaoM (pyUpper result) then
      reSubMarkers result
    else result
  pyStrip result

/-! ### stream_ollama_chat (ollama_client.py lines 450-558) and the SSE
generator event_stream of views.py (lines 535-625)

The upstream model stream is a sequence of already-split response lines:
a content chunk, the final line with done=true, or a line whose JSON fails
to decode (skipped by the source).  A requests exception interrupting the
iteration (or the initial post) is modelled as an optional terminal
exception that fires only if no done line was reached first. -/

inductive OllamaLine where
  | chunk (content : List Char)
  | doneLine
  | malformed
  deriving Repr

structure StreamRun where
  lines : List OllamaLine
  exc : Option (List Char)

/-- Events yielded by stream_ollama_chat. -/
inductive OEvent where
  | chunk (content : List Char)
  | done (fullText rawText : List Char)
  | action (a : Json)
  | error (msg : List Char)

def streamGo (exc : Option (List Char)) : List OllamaLine → List Char → List OEvent
  | [], _ =>
    match exc with
    | some m => [.error m]
    | none => []
  | .doneLine :: _, acc =>
    .done (strip_action_line acc) acc ::
      (match parse_action acc with
       | some a => [.action a]
       | none => [])
  | .chunk c :: rest, acc =>
    if c = [] then streamGo exc rest acc
    else .chunk c :: streamGo exc rest (acc ++ c)
  | .malformed :: rest, acc => streamGo exc rest acc

/-- stream_ollama_chat: on the done line it parses the accumulated text,
yields the done event first and then the action event if one was found,
and breaks out of the line loop. -/
def stream_ollama_chat (run : StreamRun) : List OEvent :=
  streamGo run.exc run.lines []

/-- Events written to the SSE channel by the event_stream generator. -/
inductive SSEEvent where
  | chunk (content : List Char)
  | finalText (text : List Char)
  | done
  | action (a : Json)
  | error (msg : List Char)

/-- event_stream (views.py): relays each upstream event; on done it first
sends a final_text correction when the raw text is longer than the clean
text; on error it sends the error event and returns.  The conversation
persistence after the loop is out of scope (spec section 1). -/
def event_stream : List OEvent → List SSEEvent
  | [] => []
  | .chunk c :: rest => .chunk c :: event_stream rest
  | .done full raw :: rest =>
    (if full.length < raw.length then [.finalText full] else []) ++
      .done :: event_stream rest
  | .action a :: rest => .action a :: event_stream rest
  | .error m :: _ => [.error m]

/-- The full output event channel of one streaming turn. -/
def sseChannel (run : StreamRun) : List SSEEvent :=
  event_stream (stream_ollama_chat run)

def isDoneO : OEvent → Bool
  | .done _ _ => true
  | _ => false

def isErrorO : OEvent → Bool
  | .error _ => true
  | _ => false

def isDoneS : SSEEvent → Bool
  | .done => true
  | _ => false

def isErrorS : SSEEvent → Bool
  | .error _ => true
  | _ => false

def isActionS : SSEEvent → Bool
  | .action _ => true
  | _ => false

def hasDoneLine : List OllamaLine → Bool
  | [] => false
  | .doneLine :: _ => true
  | _ :: rest => hasDoneLine rest

/-! ### handle_user_message (ollama_client.py lines 767-905)

The two upstream collaborators are oracles: llm n is the response text of
the n-th call_ollama invocation of this turn (the claims quantify over all
responses), and webSearch is search_web as seen from this module.  The
returned Nat counts the call_ollama invocations (instrumentation for the
at-most-two-model-calls property).  Exceptions of the body (attribute
errors on non-dict action values) propagate to the caller, as in the
source. -/

structure HandleOut where
  reply : List Char
  action : Option Json
  used_search : Bool
  search_results : Option (List (List Char))

def toolK : List Char := ['t', 'o', 'o', 'l']

def argsK : List Char := ['a', 'r', 'g', 's']

def queryK : List Char := ['q', 'u', 'e', 'r', 'y']

def webSearchS : List Char := "web_search".toList

def saveNoteS : List Char := "save_note".toList

/-- Python value.get(key, default) where value must be a dict. -/
def pyDictGet (j : Json) (k : List Char) (dflt : Json) : Except PyExc Json :=
  match j with
  | .obj _ => .ok ((jLookup j k).getD dflt)
  | _ => .error .attrError

/-- Comparison of a JSON value with a Python string literal. -/
def jEqStr (j : Json) (s : List Char) : Bool :=
  match j with
  | .str v => v = s
  | _ => false

/-- The manual reparse of lines 818-832: split on the case-sensitive
marker, fix double braces by global replace (not string-aware here), and
json.loads the result; on any failure fall back to detecting save_note. -/
def manualReparse (raw : List Char) : Option Json :=
  if containsSub actionM raw then
    let ap := replaceAll ['}', '}'] ['}']
      (replaceAll ['{', '{'] ['{'] (pyStrip (segAfterFirst actionM raw)))
    match jsonLoads ap with
    | .ok j => some j
    | .error _ =>
      if containsSub saveNoteS raw then
        some (.obj [(toolK, .str saveNoteS), (argsK, .obj [])])
      else none
  else none

/-- The default-reply selection of lines 834-848. -/
def defaultReply (toolName raw : List Char) : List Char :=
  if toolName = saveNoteS || containsSub saveNoteS raw then
    "Vou criar essa nota para ti.".toList
  else if toolName = "add_shopping_item".toList ||
      containsSub "add_shopping_item".toList raw then
    "Vou adicionar isso à lista de compras.".toList
  else if toolName = "add_agenda_event".toList ||
      containsSub "add_agenda_event".toList raw then
    "Vou adicionar esse evento à agenda.".toList
  else if toolName = "terminal_command".toList ||
      containsSub "terminal_command".toList raw then
    "Vou executar esse comando.".toList
  else if toolName = "homeassistant_call_service".toList ||
      containsSub "homeassistant_call_service".toList raw then
    "Entendido, vou fazer isso.".toList
  else if toolName = "homeassistant_get_states".toList ||
      containsSub "homeassistant_get_states".toList raw then
    "Vou verificar o estado dos dispositivos.".toList
  else "Vou tratar disso.".toList

/-- Python truthiness of a JSON value (empty dict/list/string, zero, false
and null are falsy). -/
def jTruthy : Json → Bool
  | .null => false
  | .bool b => b
  | .num n => decide (n ≠ 0)
  | .str s => decide (s ≠ [])
  | .arr [] => false
  | .arr (_ :: _) => true
  | .obj [] => false
  | .obj (_ :: _) => true

def actTruthy : Option Json → Bool
  | none => false
  | some j => jTruthy j

/-- tool_name = action.get('tool', '') if action else '' (line 834);
raises AttributeError when the (truthy) action value is not a dict. -/
def toolNameOf (action : Option Json) : Except PyExc (List Char) :=
  match action with
  | none => .ok []
  | some a =>
    if jTruthy a then
      match pyDictGet a toolK (.str []) with
      | .ok (.str s) => .ok s
      | .ok _ => .ok []
      | .error e => .error e
    else .ok []

/-- The query string passed to search_web by the web_search branch:
action.get("args", 'empty dict').get("query", "") with the non-string case
modelled as the empty query. -/
def queryOfDirective (a : Json) : List Char :=
  match (jLookup ((jLookup a argsK).getD (.obj [])) queryK).getD (.str []) with
  | .str s => s
  | _ => []

/-- handle_user_message; the second component counts call_ollama calls. -/
def handle_user_message (llm : Nat → List Char)
    (webSearch : List Char → List (List Char)) :
    Except PyExc (HandleOut × Nat) :=
  let raw := llm 0
  let action0 := parse_action raw
  let clean0 := strip_action_line raw
  let emptyAfter := pyStrip clean0 = [] &&
    (actTruthy action0 || containsSub actionM raw || containsSub saveNoteS raw)
  let action :=
    if emptyAfter && !actTruthy action0 then
      match manualReparse raw with
      | some j => some j
      | none => action0
    else action0
  match (if emptyAfter then toolNameOf action else .ok []) with
  | .error e => .error e
  | .ok toolName =>
    let clean := if emptyAfter then defaultReply toolName raw else clean0
    if !actTruthy action then
      .ok ({ reply := clean, action := none, used_search := false,
             search_results := none }, 1)
    else
      match action with
      | none =>
        .ok ({ reply := clean, action := none, used_search := false,
               search_results := none }, 1)
      | some a =>
        match pyDictGet a toolK Json.null with
        | .error e => .error e
        | .ok toolV =>
          if jEqStr toolV webSearchS then
            match pyDictGet a argsK (.obj []) with
            | .error e => .error e
            | .ok args =>
              match pyDictGet args queryK (.str []) with
              | .error e => .error e
              | .ok queryV =>
                -- a non-string query value is handed to search_web as-is in
                -- the source; modelled as the empty query (unused by claims)
                let query := match queryV with | .str s => s | _ => []
                let results := webSearch query
                let finalRaw := llm 1
                let finalClean := strip_action_line finalRaw
                .ok ({ reply := finalClean, action := none, used_search := true,
                       search_results := some results }, 2)
          else
            .ok ({ reply := clean, action := some a, used_search := false,
                   search_results := none }, 1)

/-! ### search_web / search_web_fallback (web_search_service.py lines 51-251)

One primary attempt (SESSION.get plus status / body / content-type / JSON
checks, raise_for_status and the except clauses) has one of the outcomes
below; the outcome of attempt number i is given by an oracle.  Time is a
counter advanced by the backoff sleeps; the module-level result cache is an
association list from (query, max_results) to (timestamp, results), with
dict assignment modelled as a shadowing front insertion. -/

structure RawItem where
  title : List Char
  url : List Char
  content : List Char
  engine : List Char
  deriving DecidableEq, Repr

structure SearchResult where
  title : List Char
  url : List Char
  snippet : List Char
  engine : List Char
  deriving DecidableEq, Repr

/-- Result-dict construction of lines 148-155. -/
def convertItem (it : RawItem) : SearchResult :=
  ⟨it.title, it.url, it.content, it.engine⟩

/-- Outcome of one primary-provider attempt. -/
inductive Attempt where
  | ok429
  | okEmptyBody
  | okWrongContentType
  | okBadJson
  | okJson (raw : List RawItem)
  | timeoutExc
  | requestExc
  | otherExc
  deriving DecidableEq, Repr

def isFailA : Attempt → Bool
  | .okJson _ => false
  | _ => true

/-- Behavior of the DuckDuckGo fallback provider for this call. -/
inductive FallbackB where
  | ok (rs : List SearchResult)
  | importErr
  | raiseExc
  deriving DecidableEq, Repr

/-- search_web_fallback: a single DDGS lookup, no retries; ImportError and
any other exception are caught and yield the empty list. -/
def search_web_fallback (fb : FallbackB) : List SearchResult :=
  match fb with
  | .ok rs => rs
  | .importErr => []
  | .raiseExc => []

def CACHE_TTL_SECONDS : Nat := 300

structure WSearchState where
  cache : List ((List Char × Nat) × (Nat × List SearchResult))
  now : Nat
  deriving Repr

def cacheFind (c : List ((List Char × Nat) × (Nat × List SearchResult)))
    (q : List Char) (mr : Nat) : Option (Nat × List SearchResult) :=
  match c with
  | [] => none
  | (k, v) :: rest => if k = (q, mr) then some v else cacheFind rest q mr

def cacheErase (c : List ((List Char × Nat) × (Nat × List SearchResult)))
    (q : List Char) (mr : Nat) :
    List ((List Char × Nat) × (Nat × List SearchResult)) :=
  match c with
  | [] => []
  | (k, v) :: rest => if k = (q, mr) then rest else (k, v) :: cacheErase rest q mr

/-- _get_from_cache: a hit only when the entry is younger than the TTL;
an expired entry is popped. -/
def getFromCache (st : WSearchState) (q : List Char) (mr : Nat) :
    Option (List SearchResult) × WSearchState :=
  match cacheFind st.cache q mr with
  | none => (none, st)
  | some (ts, rs) =>
    if CACHE_TTL_SECONDS < st.now - ts then
      (none, { st with cache := cacheErase st.cache q mr })
    else (some rs, st)

/-- _set_cache. -/
def setCache (st : WSearchState) (q : List Char) (mr : Nat)
    (rs : List SearchResult) : WSearchState :=
  { st with cache := ((q, mr), (st.now, rs)) :: st.cache }

/-- Network-call instrumentation: how many primary attempts and fallback
invocations this call performed. -/
structure SearchTrace where
  primaryCalls : Nat
  fallbackCalls : Nat
  deriving DecidableEq, Repr

/-- The retry loop of search_web (for attempt in range(retries)).  The
remaining counter starts at retriesN; the current attempt index is
retriesN - remaining.  On the last attempt: a timeout returns the empty
list directly, every other failure invokes the fallback once; earlier
failures sleep 2^attempt and continue.  A success trims, caches and
returns.  Falling out of the loop returns the empty list. -/
def searchLoop (primary : Nat → Attempt) (fb : FallbackB) (q : List Char)
    (mr retriesN : Nat) :
    Nat → WSearchState → SearchTrace → List SearchResult × WSearchState × SearchTrace
  | 0, st, tr => ([], st, tr)
  | rem + 1, st, tr =>
    let attempt := retriesN - (rem + 1)
    let isLast := rem = 0
    let tr := { tr with primaryCalls := tr.primaryCalls + 1 }
    let retry : WSearchState → List SearchResult × WSearchState × SearchTrace :=
      fun st => searchLoop primary fb q mr retriesN rem
        { st with now := st.now + 2 ^ attempt } tr
    let toFallback : List SearchResult × WSearchState × SearchTrace :=
      (search_web_fallback fb, st, { tr with fallbackCalls := tr.fallbackCalls + 1 })
    match primary attempt with
    | .okJson raw =>
      let results := (raw.take mr).map convertItem
      (results, setCache st q mr results, tr)
    | .ok429 => if isLast then toFallback else retry st
    | .okEmptyBody => if isLast then toFallback else retry st
    | .okWrongContentType => if isLast then toFallback else retry st
    | .okBadJson => if isLast then toFallback else retry st
    | .timeoutExc => if isLast then ([], st, tr) else retry st
    | .requestExc => if isLast then toFallback else retry st
    | .otherExc => if isLast then toFallback else retry st

/-- search_web: cache probe, then the retry loop. -/
def search_web (primary : Nat → Attempt) (fb : FallbackB) (q : List Char)
    (mr retriesN : Nat) (st : WSearchState) :
    List SearchResult × WSearchState × SearchTrace :=
  match getFromCache st q mr with
  | (some rs, st1) => (rs, st1, ⟨0, 0⟩)
  | (none, st1) => searchLoop primary fb q mr retriesN retriesN st1 ⟨0, 0⟩

/-! ### prompt_cache.py (lines 23-119)

The Django cache is an association list from key to (setAt, ttl, value)
with lazy expiry at read time; the caller-supplied loaders (prompt
assembly, Home Assistant context, memory search) are modelled as Except
values since only their success or failure matters to the claims. -/

structure MemD where
  content : List Char
  mtype : List Char
  deriving DecidableEq, Repr

inductive CVal where
  | s (v : List Char)
  | mems (ms : List MemD)
  deriving DecidableEq, Repr

inductive CKey where
  | base
  | userCtx (uid : Nat)
  | memories (uid : Nat) (qh : List Char)
  deriving DecidableEq, Repr

structure DjCache where
  entries : List (CKey × (Nat × Nat × CVal))
  now : Nat
  deriving DecidableEq, Repr

def djFind (entries : List (CKey × (Nat × Nat × CVal))) (k : CKey) :
    Option (Nat × Nat × CVal) :=
  match entries with
  | [] => none
  | (k0, v) :: rest => if k0 = k then some v else djFind rest k

/-- cache.get with lazy TTL expiry. -/
def djGet (st : DjCache) (k : CKey) : Option CVal :=
  match djFind st.entries k with
  | none => none
  | some (ts, ttl, v) => if st.now < ts + ttl then some v else none

/-- cache.set (dict semantics modelled as shadowing front insertion). -/
def djSet (st : DjCache) (k : CKey) (v : CVal) (ttl : Nat) : DjCache :=
  { st with entries := (k, (st.now, ttl, v)) :: st.entries }

def advanceDj (st : DjCache) (dt : Nat) : DjCache := { st with now := st.now + dt }

def TTL_BASE_PROMPT : Nat := 3600

def TTL_USER_CONTEXT : Nat := 600

def TTL_MEMORIES : Nat := 60

/-- get_base_system_prompt_cached: the static tier.  A cached falsy value
(empty string) is treated as a miss (if cached:).  A loader failure
propagates; nothing is written. -/
def get_base_system_prompt_cached (loader : Except PyExc (List Char))
    (st : DjCache) : Except PyExc (List Char × DjCache) :=
  let load : Except PyExc (List Char × DjCache) :=
    match loader with
    | .error e => .error e
    | .ok p => .ok (p, djSet st .base (.s p) TTL_BASE_PROMPT)
  match djGet st .base with
  | some (.s v) => if v = [] then load else .ok (v, st)
  | some (.mems _) => load
  | none => load

/-- get_user_context_cached: the per-user tier.  user is an optional user
id; a missing user or a falsy id short-circuits to the empty string. -/
def get_user_context_cached (user : Option Nat)
    (loader : Except PyExc (List Char)) (st : DjCache) :
    Except PyExc (List Char × DjCache) :=
  match user with
  | none => .ok ([], st)
  | some uid =>
    if uid = 0 then .ok ([], st)
    else
      let load : Except PyExc (List Char × DjCache) :=
        match loader with
        | .error e => .error e
        | .ok p => .ok (p, djSet st (.userCtx uid) (.s p) TTL_USER_CONTEXT)
      match djGet st (.userCtx uid) with
      | some (.s v) => if v = [] then load else .ok (v, st)
      | some (.mems _) => load
      | none => load

/-- The trigger-term list of get_relevant_memories_cached. -/
def memoryKeywords : List (List Char) :=
  ["lembra".toList, "lembraste".toList, "disseste".toList, "falaste".toList,
   "mencionaste".toList, "disse".toList, "preferência".toList, "gosto".toList,
   "costume".toList, "sempre".toList, "antes".toList, "último".toList,
   "última".toList, "passado".toList, "ontem".toList]

/-- The heuristic gate: search only when a trigger term occurs in the
lowercased message. -/
def shouldSearchMem (msg : List Char) : Bool :=
  memoryKeywords.any (fun k => containsSub k (pyLower msg))

/-- get_relevant_memories_cached: the per-query tier.  hashQ models the
md5-based query hash; recentLoader models get_recent_memories (the cheap
ungated path, never cached); searchLoader models search_memories.  On a
searchLoader failure the empty list is cached for the TTL window and
returned (lines 116-119); a cached entry is returned even when empty
(is-not-None check). -/
def get_relevant_memories_cached (user : Option Nat) (msg : List Char)
    (hashQ : List Char → List Char)
    (recentLoader searchLoader : Except PyExc (List MemD)) (st : DjCache) :
    Except PyExc (List MemD × DjCache) :=
  match user with
  | none => .ok ([], st)
  | some uid =>
    if uid = 0 then .ok ([], st)
    else if !shouldSearchMem msg then
      match recentLoader with
      | .error e => .error e
      | .ok ms => .ok (ms, st)
    else
      let key := CKey.memories uid (hashQ msg)
      match djGet st key with
      | some (.mems ms) => .ok (ms, st)
      | some (.s _) => .ok ([], st)
      | none =>
        match searchLoader with
        | .ok ms => .ok (ms, djSet st key (.mems ms) TTL_MEMORIES)
        | .error _ => .ok ([], djSet st key (.mems []) TTL_MEMORIES)

/-! ### Concrete inputs used by counterexamples and witnesses -/

/-- A directive whose args contain a string value with a literal brace,
preceded by the localized ASCII marker. -/
def acaoBraceText : List Char :=
  "ACAO: \x7b\"tool\": \"x\", \"args\": \x7b\"a\": \"\x7d\"\x7d\x7d".toList

/-- The same directive preceded by the English marker. -/
def actionBraceText : List Char :=
  "ACTION: \x7b\"tool\": \"x\", \"args\": \x7b\"a\": \"\x7d\"\x7d\x7d".toList

/-- The parsed form of the brace-in-string directive. -/
def braceDirective : Json :=
  .obj [(toolK, .str ['x']), (argsK, .obj [(['a'], .str ['}'])])]

/-- The double-brace glitch payload of spec section 8, after each marker. -/
def dblText : List Char :=
  "\x7b\x7b\"tool\": \"x\", \"args\": \x7b\x7b\x7d\x7d\x7d\x7d".toList

/-- The directive recovered from the double-brace payload. -/
def dblDirective : Json := .obj [(toolK, .str ['x']), (argsK, .obj [])]

/-- A response whose directive payload spans several lines. -/
def multiLineText : List Char :=
  "Ola\nACTION: \x7b\n\"tool\": \"x\"\x7d".toList

/-- A concrete streaming run: one chunk carrying prose plus a trailing
web_search directive, then the done line. -/
def cChunk : List Char :=
  "Vou pesquisar.\nACTION: \x7b\"tool\": \"web_search\", \"args\": \x7b\"query\": \"r\"\x7d\x7d".toList

def cRun : StreamRun := ⟨[.chunk cChunk, .doneLine], none⟩

def cDirective : Json :=
  .obj [(toolK, .str webSearchS), (argsK, .obj [(queryK, .str ['r'])])]

/-- A model-call oracle: the first response carries a web_search directive,
the second response carries a trailing save_note directive. -/
def cLlm : Nat → List Char := fun n =>
  if n = 0 then cChunk
  else if n = 1 then
    "Feito.\nACTION: \x7b\"tool\": \"save_note\", \"args\": \x7b\x7d\x7d".toList
  else []

def saveNoteDirective : Json := .obj [(toolK, .str saveNoteS), (argsK, .obj [])]

/-- Payload skeleton of the C1 family: prefix up to the opening quote of
the args string value ({"tool": "x", "args": {"a": "). -/
def c1Pre : List Char :=
  ['{', '"', 't', 'o', 'o', 'l', '"', ':', ' ', '"', 'x', '"', ',', ' ',
   '"', 'a', 'r', 'g', 's', '"', ':', ' ', '{', '"', 'a', '"', ':', ' ', '"']

/-- Payload skeleton: closing quote and the two closing braces. -/
def c1Post : List Char := ['"', '}', '}']

/-- The full response text of the C1 family for a given args string v. -/
def c1Text (v : List Char) : List Char := actionM ++ ' ' :: (c1Pre ++ v ++ c1Post)

/-- The directive the C1 family encodes. -/
def c1Directive (v : List Char) : Json :=
  .obj [(toolK, .str ['x']), (argsK, .obj [(['a'], .str v)])]

/-- Characters allowed inside the quoted args value of the C1 family: no
quote, no backslash, no raw control character (json strict mode). -/
def goodChar (c : Char) : Bool := !(c = '"') && !(c = '\\') && !(c.toNat < 32)

/-- An empty web-search state with a fixed clock. -/
def wst0 : WSearchState := ⟨[], 1000⟩

def sr1 : SearchResult := ⟨['t'], ['u'], ['s'], ['e']⟩

def rawItem1 : RawItem := ⟨['t'], ['u'], ['s'], ['e']⟩

/-! # Theorems

General-purpose lemmas about the string primitives first, then one
section per claim. -/

/-! ### Lemmas: strip, startsWith, substring containment -/

theorem pyStripL_of_head (c : Char) (l : List Char) (h : isPyWs c = false) :
    pyStripL (c :: l) = c :: l := by
  simp [pyStripL, h]

theorem pyStripL_exists_prefix (l : List Char) : ∃ a, l = a ++ pyStripL l := by
  induction l with
  | nil => exact ⟨[], rfl⟩
  | cons c rest ih =>
    by_cases h : isPyWs c
    · obtain ⟨a, ha⟩ := ih
      exact ⟨c :: a, by simp [pyStripL, h]; exact ha⟩
    · exact ⟨[], by simp [pyStripL, h]⟩

theorem pyStripL_idem (l : List Char) : pyStripL (pyStripL l) = pyStripL l := by
  induction l with
  | nil => rfl
  | cons c rest ih =>
    by_cases h : isPyWs c
    · simp [pyStripL, h, ih]
    · simp [pyStripL, h]

theorem pyStripL_append_of_ne (a x : List Char) (h : pyStripL a ≠ []) :
    pyStripL (a ++ x) = pyStripL a ++ x := by
  induction a with
  | nil => simp [pyStripL] at h
  | cons c rest ih =>
    by_cases hc : isPyWs c
    · simp [pyStripL, hc] at h ⊢
      exact ih h
    · simp [pyStripL, hc]

theorem pyStripL_append_of_nil (a x : List Char) (h : pyStripL a = []) :
    pyStripL (a ++ x) = pyStripL x := by
  induction a with
  | nil => rfl
  | cons c rest ih =>
    by_cases hc : isPyWs c
    · simp [pyStripL, hc] at h ⊢
      exact ih h
    · simp [pyStripL, hc] at h

theorem pyStripR_cases (c : Char) (l : List Char) :
    pyStripR (c :: l) = [] ∨ pyStripR (c :: l) = c :: pyStripR l := by
  by_cases h : pyStripR l = [] ∧ isPyWs c
  · left; simp [pyStripR, h.1, h.2]
  · right
    simp only [pyStripR]
    rw [if_neg]
    simpa using h

theorem pyStripR_exists_suffix (l : List Char) : ∃ b, l = pyStripR l ++ b := by
  induction l with
  | nil => exact ⟨[], rfl⟩
  | cons c rest ih =>
    obtain ⟨b, hb⟩ := ih
    by_cases h : pyStripR rest = [] ∧ isPyWs c
    · exact ⟨c :: rest, by simp [pyStripR, h.1, h.2]⟩
    · refine ⟨b, ?_⟩
      simp only [pyStripR]
      rw [if_neg (by simpa using h)]
      simpa using hb

theorem pyStripR_idem (l : List Char) : pyStripR (pyStripR l) = pyStripR l := by
  induction l with
  | nil => rfl
  | cons c rest ih =>
    by_cases h : pyStripR rest = [] ∧ isPyWs c
    · simp [pyStripR, h.1, h.2]
    · have hne : ¬(pyStripR rest = [] ∧ isPyWs c) := h
      simp only [pyStripR]
      rw [if_neg (by simpa using hne)]
      simp only [pyStripR, ih]
      rw [if_neg (by simpa using hne)]

theorem pyStripR_append_of_ne (a b : List Char) (h : pyStripR b ≠ []) :
    pyStripR (a ++ b) = a ++ pyStripR b := by
  induction a with
  | nil => rfl
  | cons c rest ih =>
    have hne : pyStripR (rest ++ b) ≠ [] := by
      rw [ih]
      intro hx
      exact h (List.append_eq_nil.mp hx).2
    simp only [List.cons_append, pyStripR]
    split
    · next hcond =>
      exfalso
      simp at hcond
      exact hne hcond.1
    · next hcond => exact congrArg (List.cons c) ih

theorem pyStripR_mem (l : List Char) (c : Char) (h : c ∈ pyStripR l) : c ∈ l := by
  induction l with
  | nil => simp [pyStripR] at h
  | cons d rest ih =>
    rcases pyStripR_cases d rest with hc | hc
    · rw [hc] at h; simp at h
    · rw [hc] at h
      rcases List.mem_cons.mp h with h1 | h1
      · simp [h1]
      · exact List.mem_cons_of_mem _ (ih h1)

theorem pyStripL_head_not_ws (l : List Char) (c : Char) (rest : List Char)
    (h : pyStripL l = c :: rest) : isPyWs c = false := by
  induction l with
  | nil => simp [pyStripL] at h
  | cons d tl ih =>
    by_cases hd : isPyWs d
    · exact ih (by simpa [pyStripL, hd] using h)
    · simp [pyStripL, hd] at h
      rcases h with ⟨h1, _⟩
      simpa [h1] using hd

theorem pyStripL_pyStripR_pyStripL (l : List Char) :
    pyStripL (pyStripR (pyStripL l)) = pyStripR (pyStripL l) := by
  cases hL : pyStripL l with
  | nil => rfl
  | cons c rest =>
    have hc : isPyWs c = false := pyStripL_head_not_ws l c rest hL
    rcases pyStripR_cases c rest with h | h
    · simp [h, pyStripL]
    · rw [h]
      exact pyStripL_of_head c (pyStripR rest) hc

theorem pyStrip_idem (l : List Char) : pyStrip (pyStrip l) = pyStrip l := by
  unfold pyStrip
  rw [pyStripL_pyStripR_pyStripL, pyStripR_idem]

theorem pyStrip_infix (l : List Char) : ∃ a b, l = a ++ pyStrip l ++ b := by
  obtain ⟨a, ha⟩ := pyStripL_exists_prefix l
  obtain ⟨b, hb⟩ := pyStripR_exists_suffix (pyStripL l)
  refine ⟨a, b, ?_⟩
  conv_lhs => rw [ha, hb]
  simp [pyStrip]

/-! ### Lemmas: startsWithL, indexOfSub?, containsSub -/

theorem startsWithL_refl_append (p x : List Char) : startsWithL p (p ++ x) = true := by
  induction p with
  | nil => rfl
  | cons c rest ih => simp [startsWithL, ih]

theorem startsWithL_exists (p s : List Char) (h : startsWithL p s = true) :
    ∃ t, s = p ++ t := by
  induction p generalizing s with
  | nil => exact ⟨s, rfl⟩
  | cons c rest ih =>
    cases s with
    | nil => simp [startsWithL] at h
    | cons d tl =>
      simp [startsWithL] at h
      obtain ⟨t, ht⟩ := ih tl h.2
      exact ⟨t, by simp [h.1, ht]⟩

theorem containsSub_cons (pat : List Char) (c : Char) (s : List Char) :
    containsSub pat (c :: s) = (startsWithL pat (c :: s) || containsSub pat s) := by
  by_cases h : startsWithL pat (c :: s) = true
  · simp [containsSub, indexOfSub?, h]
  · simp only [containsSub, indexOfSub?]
    rw [if_neg h]
    simp [Bool.or_eq_true, h]

theorem containsSub_of_startsWith (pat s : List Char)
    (h : startsWithL pat s = true) : containsSub pat s = true := by
  cases s with
  | nil => simp [containsSub, indexOfSub?, h]
  | cons c rest => simp [containsSub_cons, h]

theorem containsSub_append_left (pat a s : List Char)
    (h : containsSub pat s = true) : containsSub pat (a ++ s) = true := by
  induction a with
  | nil => simpa using h
  | cons c rest ih => simp [containsSub_cons, ih]

theorem startsWithL_append_right (p s b : List Char)
    (h : startsWithL p s = true) : startsWithL p (s ++ b) = true := by
  induction p generalizing s with
  | nil => rfl
  | cons c rest ih =>
    cases s with
    | nil => simp [startsWithL] at h
    | cons d tl =>
      simp [startsWithL] at h ⊢
      exact ⟨h.1, ih tl h.2⟩

theorem containsSub_append_right (pat s b : List Char)
    (h : containsSub pat s = true) : containsSub pat (s ++ b) = true := by
  induction s with
  | nil =>
    simp [containsSub, indexOfSub?] at h
    exact containsSub_of_startsWith _ _ (startsWithL_append_right _ _ _ h)
  | cons c rest ih =>
    rw [containsSub_cons] at h
    rcases Bool.or_eq_true_iff.mp h with h1 | h1
    · exact containsSub_of_startsWith _ _
        (by simpa using startsWithL_append_right _ _ b h1)
    · simp [containsSub_cons, ih h1]

theorem containsSub_infix (pat x u y : List Char)
    (h : containsSub pat u = true) : containsSub pat (x ++ u ++ y) = true := by
  rw [List.append_assoc]
  exact containsSub_append_left _ _ _ (containsSub_append_right _ _ _ h)

/-! ### Lemmas: splitNL and joinNL -/

theorem splitNL_ne_nil (l : List Char) : splitNL l ≠ [] := by
  cases l with
  | nil => simp [splitNL]
  | cons c rest =>
    by_cases h : c = '\n'
    · simp [splitNL, h]
    · simp only [splitNL]
      rw [if_neg h]
      cases hs : splitNL rest <;> simp

theorem joinNL_splitNL (l : List Char) : joinNL (splitNL l) = l := by
  induction l with
  | nil => rfl
  | cons c rest ih =>
    by_cases h : c = '\n'
    · subst h
      simp only [splitNL, if_pos rfl]
      cases hs : splitNL rest with
      | nil => exact absurd hs (splitNL_ne_nil rest)
      | cons x xs =>
        rw [hs] at ih
        simpa [joinNL] using ih
    · simp only [splitNL]
      rw [if_neg h]
      cases hs : splitNL rest with
      | nil => exact absurd hs (splitNL_ne_nil rest)
      | cons x xs =>
        rw [hs] at ih
        cases xs with
        | nil => simpa [joinNL] using ih
        | cons y ys => simpa [joinNL] using ih

theorem mem_joinNL (ls : List (List Char)) (l : List Char) (h : l ∈ ls) :
    ∃ a b, joinNL ls = a ++ l ++ b := by
  induction ls with
  | nil => simp at h
  | cons x xs ih =>
    rcases List.mem_cons.mp h with h1 | h1
    · subst h1
      cases xs with
      | nil => exact ⟨[], [], by simp [joinNL]⟩
      | cons y ys => exact ⟨[], '\n' :: joinNL (y :: ys), by simp [joinNL]⟩
    · obtain ⟨a, b, hab⟩ := ih h1
      cases xs with
      | nil => simp at h1
      | cons y ys =>
        exact ⟨x ++ '\n' :: a, b, by simp [joinNL, hab]⟩

/-- A line of the split of t sits inside t. -/
theorem mem_splitNL_infix (t line : List Char) (h : line ∈ splitNL t) :
    ∃ a b, t = a ++ line ++ b := by
  obtain ⟨a, b, hab⟩ := mem_joinNL _ _ h
  exact ⟨a, b, by rw [← joinNL_splitNL t, hab]⟩

/-- A marker occurring in the uppercased strip of u occurs in the
uppercase of u itself. -/
theorem containsSub_upper_of_strip (pat u : List Char)
    (h : containsSub pat (pyUpper (pyStrip u)) = true) :
    containsSub pat (pyUpper u) = true := by
  obtain ⟨a, b, hab⟩ := pyStrip_infix u
  rw [hab]
  unfold pyUpper
  rw [List.map_append, List.map_append]
  exact containsSub_infix _ _ _ _ h

/-- A marker occurring in the uppercase of some part of t occurs in the
uppercase of t. -/
theorem containsSub_upper_of_infix (pat t u a b : List Char)
    (hab : t = a ++ u ++ b) (h : containsSub pat (pyUpper u) = true) :
    containsSub pat (pyUpper t) = true := by
  rw [hab]
  unfold pyUpper
  rw [List.map_append, List.map_append]
  exact containsSub_infix _ _ _ _ h

/-- When neither marker occurs in the uppercase of u, the line filter of
strip_action_line keeps every line of u. -/
theorem keepLine_of_no_marker (u line : List Char)
    (h1 : containsSub actionM (pyUpper u) = false)
    (h2 : containsSub acaoM (pyUpper u) = false)
    (hmem : line ∈ splitNL u) : keepLine line = true := by
  obtain ⟨a, b, hab⟩ := mem_splitNL_infix _ _ hmem
  by_contra hk
  have hk2 : (startsWithL actionM (pyUpper (pyStrip line)) ||
      startsWithL acaoM (pyUpper (pyStrip line))) = true := by
    unfold keepLine at hk
    revert hk
    cases startsWithL actionM (pyUpper (pyStrip line)) <;>
      cases startsWithL acaoM (pyUpper (pyStrip line)) <;> simp
  have lineStep : ∀ pat : List Char,
      startsWithL pat (pyUpper (pyStrip line)) = true →
      containsSub pat (pyUpper u) = true := by
    intro pat hs
    have c1 : containsSub pat (pyUpper (pyStrip line)) = true :=
      containsSub_of_startsWith _ _ hs
    have c2 : containsSub pat (pyUpper line) = true :=
      containsSub_upper_of_strip _ _ c1
    exact containsSub_upper_of_infix _ _ _ _ _ hab c2
  rcases Bool.or_eq_true_iff.mp hk2 with hs | hs
  · rw [lineStep actionM hs] at h1; simp at h1
  · rw [lineStep acaoM hs] at h2; simp at h2

/-! ### C10: parse_action is total -/

theorem jsonLoads_cases (s : List Char) :
    (∃ j, jsonLoads s = .ok j) ∨ jsonLoads s = .error .jsonDecodeError := by
  unfold jsonLoads
  cases parseValue (s.length + 1) (skipWs s) with
  | none => right; rfl
  | some p =>
    obtain ⟨j, rest⟩ := p
    by_cases hw : skipWs rest = []
    · left; exact ⟨j, by simp [hw]⟩
    · right; simp [hw]

theorem tryParse2_cases (s : List Char) :
    (∃ j, tryParse2 s = .ok j) ∨ tryParse2 s = .error .jsonDecodeError := by
  unfold tryParse2
  rcases jsonLoads_cases s with ⟨j, hj⟩ | hj
  · rw [hj]; exact Or.inl ⟨j, rfl⟩
  · rw [hj]; exact jsonLoads_cases (normalize_llm_action_json s)

theorem wrapParsed_tryParse2_cases (X : List Char) :
    (∃ r, wrapParsed (tryParse2 X) = .ok r) ∨
      wrapParsed (tryParse2 X) = .error .jsonDecodeError := by
  rcases tryParse2_cases X with ⟨j, hj⟩ | hj
  · rw [hj]; exact Or.inl ⟨some j, rfl⟩
  · rw [hj]; exact Or.inr rfl

theorem branchCore_cases (scan : List Char → Nat) (ap : List Char) :
    (∃ r, branchCore scan ap = .ok r) ∨
      branchCore scan ap = .error .jsonDecodeError := by
  unfold branchCore
  cases h1 : startsWithL ['{'] ap with
  | false => simp [h1]
  | true =>
    by_cases h2 : 0 < scan ap
    · simp only [h1, if_true, if_pos h2]
      exact wrapParsed_tryParse2_cases _
    · simp [h1, h2]

theorem acaoBranchBody_cases (text textUpper : List Char) :
    (∃ r, acaoBranchBody text textUpper = .ok r) ∨
      acaoBranchBody text textUpper = .error .jsonDecodeError :=
  branchCore_cases scanNaive _

/-- C10: parse_action is total on its public interface: for every input
string it returns a parsed directive or None, and never raises; the only
raise sites are the json.loads attempts, and both occur inside except
scopes that catch JSONDecodeError. -/
theorem C10_parse_action_total (text : List Char) :
    ∃ r : Option Json, parse_action_exc text = .ok r ∧ parse_action text = r := by
  have h : ∃ r, parse_action_exc text = .ok r := by
    simp only [parse_action_exc]
    split
    · cases actionBranchBody text (pyUpper text) with
      | ok r => exact ⟨r, rfl⟩
      | error e => exact ⟨none, rfl⟩
    · split
      · rcases acaoBranchBody_cases text (pyUpper text) with ⟨r, hr⟩ | hr
        · rw [hr]; exact ⟨r, rfl⟩
        · rw [hr]; exact ⟨none, rfl⟩
      · exact ⟨none, rfl⟩
  obtain ⟨r, hr⟩ := h
  exact ⟨r, hr, by simp [parse_action, hr]⟩

/-! ### C9: extraction on marker-free texts -/

/-- C9 counterexample: on a marker-free text with surrounding whitespace
the clean text is not the unchanged input (strip_action_line trims it), so
extraction is not the identity. -/
theorem C9_counterexample :
    parse_action (" ola ".toList) = none ∧
    strip_action_line (" ola ".toList) = "ola".toList ∧
    strip_action_line (" ola ".toList) ≠ " ola ".toList := by
  exact ⟨rfl, rfl, by decide⟩

/-- C9 (amended): for every text containing no directive marker (none of
ACTION:, AÇÃO:, ACAO: occurs in the uppercased text), parse_action returns
None and the clean text is the input stripped of leading and trailing
whitespace (its interior unchanged) - not the unchanged input. -/
theorem C9_no_marker_strips (t : List Char)
    (h1 : containsSub actionM (pyUpper t) = false)
    (h2 : containsSub acaoM (pyUpper t) = false)
    (h3 : containsSub acaoAsciiM (pyUpper t) = false) :
    parse_action t = none ∧ strip_action_line t = pyStrip t := by
  constructor
  · simp [parse_action, parse_action_exc, h1, h2, h3]
  · have hc1 : containsSub actionM (pyUpper (pyStrip t)) = false := by
      cases hx : containsSub actionM (pyUpper (pyStrip t)) with
      | false => rfl
      | true => rw [containsSub_upper_of_strip _ _ hx] at h1; simp at h1
    have hc2 : containsSub acaoM (pyUpper (pyStrip t)) = false := by
      cases hx : containsSub acaoM (pyUpper (pyStrip t)) with
      | false => rfl
      | true => rw [containsSub_upper_of_strip _ _ hx] at h2; simp at h2
    have hfilter : (splitNL (pyStrip t)).filter keepLine = splitNL (pyStrip t) :=
      List.filter_eq_self.mpr
        (fun line hm => keepLine_of_no_marker (pyStrip t) line hc1 hc2 hm)
    simp only [strip_action_line]
    rw [hfilter, joinNL_splitNL, pyStrip_idem, hc1, hc2]
    simp [pyStrip_idem]

/-- C9 witness: the amended theorem applied at a concrete marker-free
text. -/
theorem C9_no_marker_strips_witness :
    parse_action ("  bom dia\ntudo bem ".toList) = none ∧
    strip_action_line ("  bom dia\ntudo bem ".toList) =
      pyStrip ("  bom dia\ntudo bem ".toList) :=
  C9_no_marker_strips _ (by decide) (by decide) (by decide)

/-! ### C2: ordering of the output event channel -/

theorem streamGo_no_error_of_done (exc : Option (List Char))
    (lines : List OllamaLine) (acc : List Char)
    (h : hasDoneLine lines = true) :
    (streamGo exc lines acc).any isErrorO = false := by
  induction lines generalizing acc with
  | nil => simp [hasDoneLine] at h
  | cons l rest ih =>
    cases l with
    | doneLine =>
      simp only [streamGo]
      cases parse_action acc <;> simp [isErrorO]
    | chunk c =>
      have h2 : hasDoneLine rest = true := by simpa [hasDoneLine] using h
      by_cases hc : c = []
      · simp only [streamGo, if_pos hc]
        exact ih _ h2
      · simp only [streamGo, if_neg hc, List.any_cons]
        simp [isErrorO, ih _ h2]
    | malformed =>
      have h2 : hasDoneLine rest = true := by simpa [hasDoneLine] using h
      simp only [streamGo]
      exact ih _ h2

theorem streamGo_no_done_of_no_doneLine (exc : Option (List Char))
    (lines : List OllamaLine) (acc : List Char)
    (h : hasDoneLine lines = false) :
    (streamGo exc lines acc).any isDoneO = false := by
  induction lines generalizing acc with
  | nil =>
    cases exc with
    | none => simp [streamGo]
    | some m => simp [streamGo, isDoneO]
  | cons l rest ih =>
    cases l with
    | doneLine => simp [hasDoneLine] at h
    | chunk c =>
      have h2 : hasDoneLine rest = false := by simpa [hasDoneLine] using h
      by_cases hc : c = []
      · simp only [streamGo, if_pos hc]
        exact ih _ h2
      · simp only [streamGo, if_neg hc, List.any_cons]
        simp [isDoneO, ih _ h2]
    | malformed =>
      have h2 : hasDoneLine rest = false := by simpa [hasDoneLine] using h
      simp only [streamGo]
      exact ih _ h2

theorem event_stream_no_error (evs : List OEvent)
    (h : evs.any isErrorO = false) :
    (event_stream evs).any isErrorS = false := by
  induction evs with
  | nil => rfl
  | cons e rest ih =>
    cases e with
    | chunk c =>
      simp only [List.any_cons, isErrorO, Bool.false_or] at h
      simp only [event_stream, List.any_cons, isErrorS, Bool.false_or]
      exact ih h
    | done full raw =>
      simp only [List.any_cons, isErrorO, Bool.false_or] at h
      by_cases hl : full.length < raw.length <;>
        · simp only [event_stream, hl, if_true, if_false, List.nil_append,
            List.cons_append, List.any_cons, List.any_nil, isErrorS,
            Bool.false_or]
          exact ih h
    | action a =>
      simp only [List.any_cons, isErrorO, Bool.false_or] at h
      simp only [event_stream, List.any_cons, isErrorS, Bool.false_or]
      exact ih h
    | error m => simp only [List.any_cons, isErrorO, Bool.true_or] at h; cases h

theorem event_stream_no_done (evs : List OEvent)
    (h : evs.any isDoneO = false) :
    (event_stream evs).any isDoneS = false := by
  induction evs with
  | nil => rfl
  | cons e rest ih =>
    cases e with
    | chunk c =>
      simp only [List.any_cons, isDoneO, Bool.false_or] at h
      simp only [event_stream, List.any_cons, isDoneS, Bool.false_or]
      exact ih h
    | done full raw => simp only [List.any_cons, isDoneO, Bool.true_or] at h; cases h
    | action a =>
      simp only [List.any_cons, isDoneO, Bool.false_or] at h
      simp only [event_stream, List.any_cons, isDoneS, Bool.false_or]
      exact ih h
    | error m => simp only [event_stream, List.any_cons, List.any_nil, isDoneS]; rfl

theorem sse_done_tail (exc : Option (List Char)) (lines : List OllamaLine)
    (acc : List Char) (h : hasDoneLine lines = true) :
    ∃ pre, (event_stream (streamGo exc lines acc) = pre ++ [SSEEvent.done]) ∨
      (∃ a, event_stream (streamGo exc lines acc) =
        pre ++ [SSEEvent.done, SSEEvent.action a]) := by
  induction lines generalizing acc with
  | nil => simp [hasDoneLine] at h
  | cons l rest ih =>
    cases l with
    | doneLine =>
      simp only [streamGo]
      cases hp : parse_action acc with
      | none =>
        by_cases hl : (strip_action_line acc).length < acc.length
        · exact ⟨[SSEEvent.finalText (strip_action_line acc)],
            Or.inl (by simp [event_stream, hl])⟩
        · exact ⟨[], Or.inl (by simp [event_stream, hl])⟩
      | some a =>
        by_cases hl : (strip_action_line acc).length < acc.length
        · exact ⟨[SSEEvent.finalText (strip_action_line acc)],
            Or.inr ⟨a, by simp [event_stream, hl]⟩⟩
        · exact ⟨[], Or.inr ⟨a, by simp [event_stream, hl]⟩⟩
    | chunk c =>
      have h2 : hasDoneLine rest = true := by simpa [hasDoneLine] using h
      by_cases hc : c = []
      · simp only [streamGo, if_pos hc]
        exact ih _ h2
      · simp only [streamGo, if_neg hc]
        obtain ⟨pre, hpre⟩ := ih (acc ++ c) h2
        refine ⟨SSEEvent.chunk c :: pre, ?_⟩
        rcases hpre with hpre | ⟨a, hpre⟩
        · exact Or.inl (by simp [event_stream, hpre])
        · exact Or.inr ⟨a, by simp [event_stream, hpre]⟩
    | malformed =>
      have h2 : hasDoneLine rest = true := by simpa [hasDoneLine] using h
      simp only [streamGo]
      exact ih _ h2

/-- C2 counterexample: a successfully completed stream whose first response
carries a web_search directive.  The channel emits the action event after
the done event (indices 3 and 2), so done is not the terminal event and the
action event is not emitted before done, contradicting the claim. -/
theorem C2_counterexample :
    hasDoneLine cRun.lines = true ∧
    parse_action cChunk = some cDirective ∧
    sseChannel cRun = [SSEEvent.chunk cChunk,
      SSEEvent.finalText ("Vou pesquisar.".toList), SSEEvent.done,
      SSEEvent.action cDirective] ∧
    (sseChannel cRun).findIdx? isDoneS = some 2 ∧
    (sseChannel cRun).findIdx? isActionS = some 3 :=
  ⟨rfl, rfl, rfl, rfl, rfl⟩

/-- C2 (amended): on every successfully completed model stream the channel
ends with the done event, except that when a directive is detected the
action event is emitted immediately AFTER done, as the terminal event; and
the channel never emits both done and error in the same turn. -/
theorem C2_done_then_action (lines : List OllamaLine) (exc : Option (List Char)) :
    ((sseChannel ⟨lines, exc⟩).any isDoneS &&
      (sseChannel ⟨lines, exc⟩).any isErrorS) = false ∧
    (hasDoneLine lines = true →
      ∃ pre, (sseChannel ⟨lines, exc⟩ = pre ++ [SSEEvent.done]) ∨
        (∃ a, sseChannel ⟨lines, exc⟩ = pre ++ [SSEEvent.done, SSEEvent.action a])) := by
  constructor
  · cases hd : hasDoneLine lines with
    | true =>
      have he := event_stream_no_error _
        (streamGo_no_error_of_done exc lines [] hd)
      simp [sseChannel, stream_ollama_chat, he]
    | false =>
      have he := event_stream_no_done _
        (streamGo_no_done_of_no_doneLine exc lines [] hd)
      simp [sseChannel, stream_ollama_chat, he]
  · intro hd
    exact sse_done_tail exc lines [] hd

/-- C2 witness: the amended theorem applied at the concrete run. -/
theorem C2_done_then_action_witness :
    ((sseChannel ⟨cRun.lines, none⟩).any isDoneS &&
      (sseChannel ⟨cRun.lines, none⟩).any isErrorS) = false ∧
    (∃ pre, (sseChannel ⟨cRun.lines, none⟩ = pre ++ [SSEEvent.done]) ∨
      (∃ a, sseChannel ⟨cRun.lines, none⟩ =
        pre ++ [SSEEvent.done, SSEEvent.action a])) :=
  ⟨(C2_done_then_action cRun.lines none).1,
   (C2_done_then_action cRun.lines none).2 rfl⟩

/-! ### C4: what strip_action_line removes -/

theorem pyStripR_append_of_nil (a b : List Char) (h : pyStripR b = []) :
    pyStripR (a ++ b) = pyStripR a := by
  induction a with
  | nil => simpa using h
  | cons c rest ih =>
    simp only [List.cons_append, pyStripR, List.append_eq, ih]

theorem pyStripR_cons_of_ne (c : Char) (l : List Char) (h : pyStripR l ≠ []) :
    pyStripR (c :: l) = c :: pyStripR l := by
  have hcond : (decide (pyStripR l = []) && isPyWs c) = false := by simp [h]
  simp only [pyStripR, hcond]
  simp

theorem stripR_marker_tail (tail : List Char) :
    pyStripR (actionM ++ tail) = actionM ++ pyStripR tail := by
  by_cases h : pyStripR tail = []
  · rw [pyStripR_append_of_nil _ _ h, h, List.append_nil]
    rfl
  · exact pyStripR_append_of_ne _ _ h

theorem pyStripL_marker_tail (tail : List Char) :
    pyStripL (actionM ++ tail) = actionM ++ tail := by
  simp [actionM, pyStripL, isPyWs]

theorem splitNL_no_nl (l : List Char) (h : ∀ c ∈ l, ¬c = '\n') :
    splitNL l = [l] := by
  induction l with
  | nil => rfl
  | cons c rest ih =>
    have hc : ¬c = '\n' := h c (by simp)
    have h2 : ∀ d ∈ rest, ¬d = '\n' := fun d hd => h d (by simp [hd])
    simp only [splitNL]
    rw [if_neg hc, ih h2]

theorem splitNL_append_nl (a b : List Char) :
    splitNL (a ++ '\n' :: b) = splitNL a ++ splitNL b := by
  induction a with
  | nil => simp [splitNL]
  | cons c rest ih =>
    by_cases hc : c = '\n'
    · subst hc
      simp [splitNL, ih]
    · simp only [List.cons_append, splitNL, List.append_eq]
      rw [if_neg hc, if_neg hc, ih]
      cases hs : splitNL rest with
      | nil => exact absurd hs (splitNL_ne_nil rest)
      | cons x xs => simp

/-- The marker line itself never survives the line filter. -/
theorem keepLine_marker (x : List Char) :
    keepLine (actionM ++ pyStripR x) = false := by
  have hstrip : pyStrip (actionM ++ pyStripR x) = actionM ++ pyStripR x := by
    unfold pyStrip
    rw [pyStripL_marker_tail, stripR_marker_tail, pyStripR_idem]
  unfold keepLine
  rw [hstrip]
  have hupper : pyUpper (actionM ++ pyStripR x) =
      actionM ++ pyUpper (pyStripR x) := by
    unfold pyUpper
    rw [List.map_append]
    rfl
  rw [hupper, startsWithL_refl_append]
  rfl

/-- C4 counterexample: a response whose directive payload spans several
lines.  Only the marker line is removed: the payload lines remain in the
user-visible clean text, so part of the directive text from the marker to
end-of-text does appear in the displayed reply. -/
theorem C4_counterexample :
    containsSub actionM multiLineText = true ∧
    strip_action_line multiLineText = ("Ola\n\"tool\": \"x\"\x7d".toList) ∧
    containsSub ("\"tool\": \"x\"\x7d".toList) (strip_action_line multiLineText)
      = true :=
  ⟨rfl, rfl, rfl⟩

/-- C4 (amended): for a response made of marker-free content, a newline,
and a single-line ACTION: directive, the clean text is the content trimmed:
the marker and everything after it on the marker's line are removed.  (For
multi-line payloads only the marker's line is removed - see the
counterexample - and the ASCII spelling ACAO: is not stripped at all.) -/
theorem C4_marker_line_removed (pre tail : List Char)
    (h1 : containsSub actionM (pyUpper pre) = false)
    (h2 : containsSub acaoM (pyUpper pre) = false)
    (h3 : ∀ c ∈ tail, ¬c = '\n') :
    strip_action_line (pre ++ '\n' :: (actionM ++ tail)) = pyStrip pre := by
  have hnlB : ∀ c ∈ actionM ++ pyStripR tail, ¬c = '\n' := by
    intro c hc
    rcases List.mem_append.mp hc with hc | hc
    · exact fun he => absurd (he ▸ hc) (by decide)
    · exact h3 c (pyStripR_mem _ _ hc)
  have hBne : actionM ++ pyStripR tail ≠ [] := by simp [actionM]
  have hc1 : containsSub actionM (pyUpper (pyStrip pre)) = false := by
    cases hx : containsSub actionM (pyUpper (pyStrip pre)) with
    | false => rfl
    | true => rw [containsSub_upper_of_strip _ _ hx] at h1; simp at h1
  have hc2 : containsSub acaoM (pyUpper (pyStrip pre)) = false := by
    cases hx : containsSub acaoM (pyUpper (pyStrip pre)) with
    | false => rfl
    | true => rw [containsSub_upper_of_strip _ _ hx] at h2; simp at h2
  have hfilterB : (splitNL (actionM ++ pyStripR tail)).filter keepLine = [] := by
    rw [splitNL_no_nl _ hnlB]
    simp [List.filter_cons, keepLine_marker]
  cases hL : pyStripL pre with
  | nil =>
    have hT : pyStrip (pre ++ '\n' :: (actionM ++ tail)) =
        actionM ++ pyStripR tail := by
      unfold pyStrip
      rw [pyStripL_append_of_nil _ _ hL]
      have : pyStripL ('\n' :: (actionM ++ tail)) = actionM ++ tail := by
        simp only [pyStripL]
        rw [if_pos (by decide)]
        exact pyStripL_marker_tail tail
      rw [this, stripR_marker_tail]
    simp only [strip_action_line]
    rw [hT, hfilterB]
    have hpre : pyStrip pre = [] := by
      unfold pyStrip
      rw [hL]
      rfl
    rw [hpre]
    rfl
  | cons p ps =>
    have hLne : pyStripL pre ≠ [] := by rw [hL]; simp
    have hA1 : containsSub actionM (pyUpper (pyStripL pre)) = false := by
      cases hx : containsSub actionM (pyUpper (pyStripL pre)) with
      | false => rfl
      | true =>
        obtain ⟨a0, ha0⟩ := pyStripL_exists_prefix pre
        have := containsSub_upper_of_infix actionM pre (pyStripL pre) a0 []
          (by rw [List.append_nil]; exact ha0) hx
        rw [this] at h1; simp at h1
    have hA2 : containsSub acaoM (pyUpper (pyStripL pre)) = false := by
      cases hx : containsSub acaoM (pyUpper (pyStripL pre)) with
      | false => rfl
      | true =>
        obtain ⟨a0, ha0⟩ := pyStripL_exists_prefix pre
        have := containsSub_upper_of_infix acaoM pre (pyStripL pre) a0 []
          (by rw [List.append_nil]; exact ha0) hx
        rw [this] at h2; simp at h2
    have hRX : pyStripR ('\n' :: (actionM ++ tail)) =
        '\n' :: (actionM ++ pyStripR tail) := by
      rw [pyStripR_cons_of_ne _ _ (by rw [stripR_marker_tail]; exact hBne),
        stripR_marker_tail]
    have hT : pyStrip (pre ++ '\n' :: (actionM ++ tail)) =
        pyStripL pre ++ '\n' :: (actionM ++ pyStripR tail) := by
      unfold pyStrip
      rw [pyStripL_append_of_ne _ _ hLne,
        pyStripR_append_of_ne _ _ (by rw [hRX]; simp), hRX]
    have hfilterA : (splitNL (pyStripL pre)).filter keepLine = splitNL (pyStripL pre) :=
      List.filter_eq_self.mpr
        (fun line hm => keepLine_of_no_marker (pyStripL pre) line hA1 hA2 hm)
    have hstripA : pyStrip (pyStripL pre) = pyStrip pre := by
      unfold pyStrip
      rw [pyStripL_idem]
    simp only [strip_action_line]
    rw [hT, splitNL_append_nl, List.filter_append, hfilterA, hfilterB,
      List.append_nil, joinNL_splitNL, hstripA, hc1, hc2]
    simp [pyStrip_idem]

/-- C4 witness: the amended theorem applied at a concrete single-line
directive response. -/
theorem C4_marker_line_removed_witness :
    strip_action_line ("Vou pesquisar.".toList ++ '\n' ::
        (actionM ++ " \x7b\"tool\": \"web_search\"\x7d".toList)) =
      pyStrip ("Vou pesquisar.".toList) :=
  C4_marker_line_removed ("Vou pesquisar.".toList)
    (" \x7b\"tool\": \"web_search\"\x7d".toList) (by decide) (by decide) (by decide)

/-! ### C5: double-brace normalization -/

/-- Inside a string literal, normGo copies quote-free, backslash-free
content verbatim up to and including the closing quote. -/
theorem normGo_inString (v : List Char)
    (h : ∀ c ∈ v, ¬(c = '"') ∧ ¬(c = '\\')) :
    normGo (v ++ ['"']) true false = v ++ ['"'] := by
  induction v with
  | nil => rfl
  | cons c v2 ih =>
    have hc := h c (by simp)
    have h2 : ∀ d ∈ v2, ¬(d = '"') ∧ ¬(d = '\\') := fun d hd => h d (by simp [hd])
    cases hv : v2 ++ ['"'] with
    | nil => simp at hv
    | cons d rest2 =>
      have : normGo (c :: (d :: rest2)) true false =
          c :: normGo (d :: rest2) true false := by
        simp only [normGo]
        rw [if_neg (by simp), if_neg (by simpa using hc.2),
          if_neg (by simpa using hc.1)]
        simp
      rw [List.cons_append, hv, this, ← hv, ih h2]

/-- C5: a marker immediately followed by a doubled-brace payload is
recovered as the directive with tool x and empty args, for the English
and both spellings of the localized marker; the brace normalization is
applied only as a second attempt - whenever the raw parse of the span
succeeds, its result is returned and the normalizer is never consulted -
and the normalizer leaves quoted content unchanged. -/
theorem C5_double_brace_normalization :
    (parse_action ("ACTION: ".toList ++ dblText) = some dblDirective) ∧
    (parse_action ("ACAO: ".toList ++ dblText) = some dblDirective) ∧
    (parse_action ("Ação: ".toList ++ dblText) = some dblDirective) ∧
    (∀ s j, jsonLoads s = .ok j → tryParse2 s = .ok j) ∧
    (∀ v, (∀ c ∈ v, ¬(c = '"') ∧ ¬(c = '\\')) →
      normalize_llm_action_json ('"' :: v ++ ['"']) = '"' :: v ++ ['"']) := by
  refine ⟨rfl, rfl, rfl, ?_, ?_⟩
  · intro s j h
    unfold tryParse2
    rw [h]
  · intro v h
    cases hv : v ++ ['"'] with
    | nil => simp at hv
    | cons d rest2 =>
      show normGo ('"' :: (v ++ ['"'])) false false = '"' :: v ++ ['"']
      rw [hv]
      have : normGo ('"' :: (d :: rest2)) false false =
          '"' :: normGo (d :: rest2) true false := by
        simp only [normGo]
        rw [if_neg (by simp), if_neg (by simp)]
        simp
      rw [this, ← hv, normGo_inString v h]
      rfl

/-- C5 witness: the second-attempt property applied at a concrete span
whose raw parse succeeds, and the quoted-content property applied at a
doubled-brace string body. -/
theorem C5_double_brace_normalization_witness :
    tryParse2 ("\x7b\"a\": 1\x7d".toList) = .ok (.obj [(['a'], .num 1)]) ∧
    normalize_llm_action_json ('"' :: "\x7b\x7b\x7d\x7d".toList ++ ['"']) =
      '"' :: "\x7b\x7b\x7d\x7d".toList ++ ['"'] :=
  ⟨C5_double_brace_normalization.2.2.2.1 _ _ rfl,
   C5_double_brace_normalization.2.2.2.2 _ (by decide)⟩

/-! ### C7: failure semantics of the three cache tiers -/

/-- C7: when the memory-search loader of the per-query tier fails, an
explicit empty result is stored under the (user, query-hash) key for the
TTL window and the empty list is returned; a repeated call for the same
message within the window returns the cached empty result for EVERY choice
of loaders, so the failing loader is not re-invoked; a loader failure in
the static (base prompt) tier or the per-user (user context) tier
propagates to the caller as the same exception and the returned
computation performs no cache write. -/
theorem C7_cache_failure_semantics
    (uid : Nat) (msg : List Char) (hashQ : List Char → List Char)
    (recentL : Except PyExc (List MemD)) (e : PyExc) (st : DjCache)
    (huid : ¬uid = 0) (hgate : shouldSearchMem msg = true)
    (hmiss : djGet st (.memories uid (hashQ msg)) = none) :
    (get_relevant_memories_cached (some uid) msg hashQ recentL (.error e) st =
      .ok ([], djSet st (.memories uid (hashQ msg)) (.mems []) TTL_MEMORIES)) ∧
    (∀ (recentL2 searchL2 : Except PyExc (List MemD)) (dt : Nat),
      dt < TTL_MEMORIES →
      get_relevant_memories_cached (some uid) msg hashQ recentL2 searchL2
          (advanceDj
            (djSet st (.memories uid (hashQ msg)) (.mems []) TTL_MEMORIES) dt) =
        .ok ([], advanceDj
          (djSet st (.memories uid (hashQ msg)) (.mems []) TTL_MEMORIES) dt)) ∧
    (∀ st2 : DjCache, djGet st2 .base = none →
      get_base_system_prompt_cached (.error e) st2 = .error e) ∧
    (∀ (st2 : DjCache) (uid2 : Nat), ¬uid2 = 0 →
      djGet st2 (.userCtx uid2) = none →
      get_user_context_cached (some uid2) (.error e) st2 = .error e) := by
  refine ⟨?_, ?_, ?_, ?_⟩
  · simp [get_relevant_memories_cached, huid, hgate, hmiss]
  · intro recentL2 searchL2 dt hdt
    have hhit : djGet (advanceDj
        (djSet st (.memories uid (hashQ msg)) (.mems []) TTL_MEMORIES) dt)
        (.memories uid (hashQ msg)) = some (.mems []) := by
      simp [djGet, djFind, djSet, advanceDj, TTL_MEMORIES] at hdt ⊢
      omega
    simp [get_relevant_memories_cached, huid, hgate, hhit]
  · intro st2 hm
    simp [get_base_system_prompt_cached, hm]
  · intro st2 uid2 huid2 hm
    simp [get_user_context_cached, huid2, hm]

/-- C7 witness: the theorem applied at a concrete failing loader, user,
message containing a trigger term, and empty cache. -/
theorem C7_cache_failure_semantics_witness :
    (get_relevant_memories_cached (some 1) ("lembra disso".toList)
        (fun _ => ['h']) (.ok []) (.error .otherError) ⟨[], 5⟩ =
      .ok ([], djSet ⟨[], 5⟩ (.memories 1 ['h']) (.mems []) TTL_MEMORIES)) ∧
    (∀ (recentL2 searchL2 : Except PyExc (List MemD)) (dt : Nat),
      dt < TTL_MEMORIES →
      get_relevant_memories_cached (some 1) ("lembra disso".toList)
          (fun _ => ['h']) recentL2 searchL2
          (advanceDj (djSet ⟨[], 5⟩ (.memories 1 ['h']) (.mems [])
            TTL_MEMORIES) dt) =
        .ok ([], advanceDj (djSet ⟨[], 5⟩ (.memories 1 ['h']) (.mems [])
          TTL_MEMORIES) dt)) ∧
    (∀ st2 : DjCache, djGet st2 .base = none →
      get_base_system_prompt_cached (.error .otherError) st2 =
        .error .otherError) ∧
    (∀ (st2 : DjCache) (uid2 : Nat), ¬uid2 = 0 →
      djGet st2 (.userCtx uid2) = none →
      get_user_context_cached (some uid2) (.error .otherError) st2 =
        .error .otherError) :=
  C7_cache_failure_semantics 1 ("lembra disso".toList) (fun _ => ['h'])
    (.ok []) .otherError ⟨[], 5⟩ (by decide) (by decide) rfl

/-! ### C3 and C8: the retry loop of search_web -/

/-- One unfolding step of the retry loop. -/
theorem searchLoop_succ (primary : Nat → Attempt) (fb : FallbackB)
    (q : List Char) (mr retriesN rem : Nat) (st : WSearchState)
    (tr : SearchTrace) :
    searchLoop primary fb q mr retriesN (rem + 1) st tr =
      (match primary (retriesN - (rem + 1)) with
       | .okJson raw =>
         ((raw.take mr).map convertItem,
          setCache st q mr ((raw.take mr).map convertItem),
          ⟨tr.primaryCalls + 1, tr.fallbackCalls⟩)
       | .timeoutExc =>
         if rem = 0 then ([], st, ⟨tr.primaryCalls + 1, tr.fallbackCalls⟩)
         else searchLoop primary fb q mr retriesN rem
           { st with now := st.now + 2 ^ (retriesN - (rem + 1)) }
           ⟨tr.primaryCalls + 1, tr.fallbackCalls⟩
       | _ =>
         if rem = 0 then
           (search_web_fallback fb, st,
            ⟨tr.primaryCalls + 1, tr.fallbackCalls + 1⟩)
         else searchLoop primary fb q mr retriesN rem
           { st with now := st.now + 2 ^ (retriesN - (rem + 1)) }
           ⟨tr.primaryCalls + 1, tr.fallbackCalls⟩) := by
  simp only [searchLoop]
  cases primary (retriesN - (rem + 1)) <;> rfl

/-- When every primary attempt fails, the loop ends at the last attempt:
a timeout there returns the empty list with no fallback call, any other
failure invokes the fallback exactly once; the cache is never written. -/
theorem searchLoop_all_fail (primary : Nat → Attempt) (fb : FallbackB)
    (q : List Char) (mr n : Nat)
    (hfail : ∀ i, i < n → isFailA (primary i) = true) :
    ∀ rem0 : Nat, rem0 + 1 ≤ n → ∀ (st : WSearchState) (tr : SearchTrace),
    ∃ st2 : WSearchState, st2.cache = st.cache ∧
      searchLoop primary fb q mr n (rem0 + 1) st tr =
        (if primary (n - 1) = .timeoutExc
         then ([], st2, ⟨tr.primaryCalls + (rem0 + 1), tr.fallbackCalls⟩)
         else (search_web_fallback fb, st2,
               ⟨tr.primaryCalls + (rem0 + 1), tr.fallbackCalls + 1⟩)) := by
  intro rem0
  induction rem0 with
  | zero =>
    intro hle st tr
    refine ⟨st, rfl, ?_⟩
    have hf := hfail (n - 1) (by omega)
    rw [searchLoop_succ]
    simp only [Nat.zero_add]
    cases hp : primary (n - 1) with
    | okJson raw => rw [hp] at hf; simp [isFailA] at hf
    | ok429 => simp [hp]
    | okEmptyBody => simp [hp]
    | okWrongContentType => simp [hp]
    | okBadJson => simp [hp]
    | timeoutExc => simp [hp]
    | requestExc => simp [hp]
    | otherExc => simp [hp]
  | succ rem1 ih =>
    intro hle st tr
    have hf := hfail (n - (rem1 + 1 + 1)) (by omega)
    have hstep : ∀ st' : WSearchState,
        ∃ st2 : WSearchState, st2.cache = st'.cache ∧
        searchLoop primary fb q mr n (rem1 + 1) st'
            ⟨tr.primaryCalls + 1, tr.fallbackCalls⟩ =
          (if primary (n - 1) = .timeoutExc
           then ([], st2, ⟨tr.primaryCalls + (rem1 + 1 + 1), tr.fallbackCalls⟩)
           else (search_web_fallback fb, st2,
                 ⟨tr.primaryCalls + (rem1 + 1 + 1), tr.fallbackCalls + 1⟩)) := by
      intro st'
      obtain ⟨st2, hc, heq⟩ := ih (by omega) st' ⟨tr.primaryCalls + 1, tr.fallbackCalls⟩
      refine ⟨st2, hc, ?_⟩
      rw [heq]
      have h9 : tr.primaryCalls + 1 + (rem1 + 1) = tr.primaryCalls + (rem1 + 1 + 1) := by
        omega
      rw [h9]
    rw [searchLoop_succ]
    cases hp : primary (n - (rem1 + 1 + 1)) with
    | okJson raw => rw [hp] at hf; simp [isFailA] at hf
    | ok429 =>
      obtain ⟨st2, hc, heq⟩ :=
        hstep { st with now := st.now + 2 ^ (n - (rem1 + 1 + 1)) }
      exact ⟨st2, hc, by simp [heq]⟩
    | okEmptyBody =>
      obtain ⟨st2, hc, heq⟩ :=
        hstep { st with now := st.now + 2 ^ (n - (rem1 + 1 + 1)) }
      exact ⟨st2, hc, by simp [heq]⟩
    | okWrongContentType =>
      obtain ⟨st2, hc, heq⟩ :=
        hstep { st with now := st.now + 2 ^ (n - (rem1 + 1 + 1)) }
      exact ⟨st2, hc, by simp [heq]⟩
    | okBadJson =>
      obtain ⟨st2, hc, heq⟩ :=
        hstep { st with now := st.now + 2 ^ (n - (rem1 + 1 + 1)) }
      exact ⟨st2, hc, by simp [heq]⟩
    | timeoutExc =>
      obtain ⟨st2, hc, heq⟩ :=
        hstep { st with now := st.now + 2 ^ (n - (rem1 + 1 + 1)) }
      exact ⟨st2, hc, by simp [heq]⟩
    | requestExc =>
      obtain ⟨st2, hc, heq⟩ :=
        hstep { st with now := st.now + 2 ^ (n - (rem1 + 1 + 1)) }
      exact ⟨st2, hc, by simp [heq]⟩
    | otherExc =>
      obtain ⟨st2, hc, heq⟩ :=
        hstep { st with now := st.now + 2 ^ (n - (rem1 + 1 + 1)) }
      exact ⟨st2, hc, by simp [heq]⟩

/-- When the primary provider succeeds at attempt k after k retryable
failures, the loop returns the results trimmed to mr, writes them to the
cache at the current clock, and reports k+1 primary calls and no fallback
call. -/
theorem searchLoop_success (primary : Nat → Attempt) (fb : FallbackB)
    (q : List Char) (mr n k : Nat) (raw : List RawItem)
    (hk : k < n)
    (hfail : ∀ i, i < k → isFailA (primary i) = true)
    (hsucc : primary k = .okJson raw) :
    ∀ rem0 : Nat, rem0 + 1 ≤ n → n - (rem0 + 1) ≤ k →
    ∀ (st : WSearchState) (tr : SearchTrace),
    ∃ now2 : Nat, st.now ≤ now2 ∧
      searchLoop primary fb q mr n (rem0 + 1) st tr =
        ((raw.take mr).map convertItem,
         ⟨((q, mr), (now2, (raw.take mr).map convertItem)) :: st.cache, now2⟩,
         ⟨tr.primaryCalls + (k - (n - (rem0 + 1))) + 1, tr.fallbackCalls⟩) := by
  intro rem0
  induction rem0 with
  | zero =>
    intro hle hjk st tr
    refine ⟨st.now, le_refl _, ?_⟩
    rw [show k - (n - (0 + 1)) = 0 from by omega, searchLoop_succ]
    simp only [Nat.zero_add]
    rw [show n - 1 = k from by omega, hsucc]
    rfl
  | succ rem1 ih =>
    intro hle hjk st tr
    by_cases hj : n - (rem1 + 1 + 1) = k
    · refine ⟨st.now, le_refl _, ?_⟩
      rw [show k - (n - (rem1 + 1 + 1)) = 0 from by omega, searchLoop_succ,
        hj, hsucc]
      rfl
    · have hjlt : n - (rem1 + 1 + 1) < k := by omega
      have hf := hfail (n - (rem1 + 1 + 1)) hjlt
      have next : ∀ st' : WSearchState, st'.cache = st.cache →
          ∃ now2 : Nat, st'.now ≤ now2 ∧
          searchLoop primary fb q mr n (rem1 + 1) st'
              ⟨tr.primaryCalls + 1, tr.fallbackCalls⟩ =
            ((raw.take mr).map convertItem,
             ⟨((q, mr), (now2, (raw.take mr).map convertItem)) :: st.cache, now2⟩,
             ⟨tr.primaryCalls + (k - (n - (rem1 + 1 + 1))) + 1, tr.fallbackCalls⟩) := by
        intro st' hcache
        obtain ⟨now2, hle2, heq⟩ := ih (by omega) (by omega) st'
          ⟨tr.primaryCalls + 1, tr.fallbackCalls⟩
        refine ⟨now2, hle2, ?_⟩
        rw [heq, hcache,
          show tr.primaryCalls + 1 + (k - (n - (rem1 + 1))) + 1 =
            tr.primaryCalls + (k - (n - (rem1 + 1 + 1))) + 1 from by omega]
      rw [searchLoop_succ]
      cases hp : primary (n - (rem1 + 1 + 1)) with
      | okJson raw2 => rw [hp] at hf; simp [isFailA] at hf
      | ok429 =>
        obtain ⟨now2, hle2, heq⟩ :=
          next { st with now := st.now + 2 ^ (n - (rem1 + 1 + 1)) } rfl
        exact ⟨now2, le_trans (Nat.le_add_right _ _) hle2, by simp [heq]⟩
      | okEmptyBody =>
        obtain ⟨now2, hle2, heq⟩ :=
          next { st with now := st.now + 2 ^ (n - (rem1 + 1 + 1)) } rfl
        exact ⟨now2, le_trans (Nat.le_add_right _ _) hle2, by simp [heq]⟩
      | okWrongContentType =>
        obtain ⟨now2, hle2, heq⟩ :=
          next { st with now := st.now + 2 ^ (n - (rem1 + 1 + 1)) } rfl
        exact ⟨now2, le_trans (Nat.le_add_right _ _) hle2, by simp [heq]⟩
      | okBadJson =>
        obtain ⟨now2, hle2, heq⟩ :=
          next { st with now := st.now + 2 ^ (n - (rem1 + 1 + 1)) } rfl
        exact ⟨now2, le_trans (Nat.le_add_right _ _) hle2, by simp [heq]⟩
      | timeoutExc =>
        obtain ⟨now2, hle2, heq⟩ :=
          next { st with now := st.now + 2 ^ (n - (rem1 + 1 + 1)) } rfl
        exact ⟨now2, le_trans (Nat.le_add_right _ _) hle2, by simp [heq]⟩
      | requestExc =>
        obtain ⟨now2, hle2, heq⟩ :=
          next { st with now := st.now + 2 ^ (n - (rem1 + 1 + 1)) } rfl
        exact ⟨now2, le_trans (Nat.le_add_right _ _) hle2, by simp [heq]⟩
      | otherExc =>
        obtain ⟨now2, hle2, heq⟩ :=
          next { st with now := st.now + 2 ^ (n - (rem1 + 1 + 1)) } rfl
        exact ⟨now2, le_trans (Nat.le_add_right _ _) hle2, by simp [heq]⟩

/-- C3 counterexample: with a primary provider that always times out, all
three primary attempts are exhausted, yet the fallback provider is never
invoked (fallbackCalls = 0): the Timeout handler returns the empty list
directly on the last attempt. -/
theorem C3_counterexample :
    (∀ i, i < 3 → isFailA ((fun _ => Attempt.timeoutExc) i) = true) ∧
    search_web (fun _ => Attempt.timeoutExc) (.ok [sr1]) ['q'] 5 3 wst0 =
      ([], ⟨[], 1003⟩, ⟨3, 0⟩) :=
  ⟨fun _ _ => rfl, rfl⟩

/-- C3 (amended): when all primary attempts are exhausted and the final
failure is not a timeout (429, empty body, wrong content type, JSON decode
failure, request error or any other exception), the fallback provider is
invoked exactly once with no retries and its outcome is returned; when the
final failure is a timeout, the fallback is not invoked and the empty list
is returned directly.  A failing or empty fallback yields the empty list
rather than an exception, and the cache is never written on these paths. -/
theorem C3_exhaustion_fallback (primary : Nat → Attempt) (fb : FallbackB)
    (q : List Char) (mr n : Nat) (st : WSearchState)
    (hn : 1 ≤ n)
    (hfail : ∀ i, i < n → isFailA (primary i) = true)
    (hmiss : cacheFind st.cache q mr = none) :
    (∃ st2 : WSearchState, st2.cache = st.cache ∧
      (¬primary (n - 1) = .timeoutExc →
        search_web primary fb q mr n st =
          (search_web_fallback fb, st2, ⟨n, 1⟩)) ∧
      (primary (n - 1) = .timeoutExc →
        search_web primary fb q mr n st = ([], st2, ⟨n, 0⟩))) ∧
    search_web_fallback .raiseExc = [] ∧
    search_web_fallback .importErr = [] := by
  obtain ⟨st2, hc, heq⟩ :=
    searchLoop_all_fail primary fb q mr n hfail (n - 1) (by omega) st ⟨0, 0⟩
  rw [show n - 1 + 1 = n from by omega] at heq
  refine ⟨⟨st2, hc, ?_, ?_⟩, rfl, rfl⟩
  · intro hne
    rw [if_neg hne] at heq
    simp only [search_web, getFromCache, hmiss]
    rw [heq]
    simp
  · intro he
    rw [if_pos he] at heq
    simp only [search_web, getFromCache, hmiss]
    rw [heq]
    simp

/-- C3 witness: the amended theorem applied to a provider that always
returns 429 with a raising fallback. -/
theorem C3_exhaustion_fallback_witness :
    (∃ st2 : WSearchState, st2.cache = wst0.cache ∧
      (¬(fun _ => Attempt.ok429) (2 - 1) = Attempt.timeoutExc →
        search_web (fun _ => Attempt.ok429) .raiseExc ['q'] 5 2 wst0 =
          (search_web_fallback .raiseExc, st2, ⟨2, 1⟩)) ∧
      ((fun _ => Attempt.ok429) (2 - 1) = Attempt.timeoutExc →
        search_web (fun _ => Attempt.ok429) .raiseExc ['q'] 5 2 wst0 =
          ([], st2, ⟨2, 0⟩))) ∧
    search_web_fallback .raiseExc = [] ∧
    search_web_fallback .importErr = [] :=
  C3_exhaustion_fallback (fun _ => Attempt.ok429) .raiseExc ['q'] 5 2 wst0
    (by omega) (fun _ _ => rfl) rfl

/-- C8 counterexample: a successful search served by the fallback provider
(primary always 429, fallback returns one result) returns a nonempty result
list but leaves the state - including the result cache - unchanged: nothing
is written, so a second identical call within the TTL performs the same
network attempts again (primaryCalls = 1, fallbackCalls = 1, not 0). -/
theorem C8_counterexample :
    search_web (fun _ => Attempt.ok429) (.ok [sr1]) ['q'] 5 1 wst0 =
      ([sr1], wst0, ⟨1, 1⟩) ∧
    cacheFind wst0.cache ['q'] 5 = none ∧
    (search_web (fun _ => Attempt.ok429) (.ok [sr1]) ['q'] 5 1 wst0).2.2 =
      ⟨1, 1⟩ :=
  ⟨rfl, rfl, rfl⟩

/-- C8 (amended): on every PRIMARY success the results are trimmed to at
most maxResults and written to the result cache before returning, and a
second identical call within the 5-minute TTL returns the cached results
with no network attempt at all (zero primary and zero fallback calls, for
any providers); fallback successes are returned without being cached. -/
theorem C8_primary_success_caches (primary : Nat → Attempt) (fb : FallbackB)
    (q : List Char) (mr n k : Nat) (raw : List RawItem) (st : WSearchState)
    (hk : k < n)
    (hfail : ∀ i, i < k → isFailA (primary i) = true)
    (hsucc : primary k = .okJson raw)
    (hmiss : cacheFind st.cache q mr = none) :
    ∃ now2 : Nat, st.now ≤ now2 ∧
      search_web primary fb q mr n st =
        ((raw.take mr).map convertItem,
         ⟨((q, mr), (now2, (raw.take mr).map convertItem)) :: st.cache, now2⟩,
         ⟨k + 1, 0⟩) ∧
      ((raw.take mr).map convertItem).length ≤ mr ∧
      (∀ (primary2 : Nat → Attempt) (fb2 : FallbackB) (n2 dt : Nat),
        dt ≤ CACHE_TTL_SECONDS →
        search_web primary2 fb2 q mr n2
            ⟨((q, mr), (now2, (raw.take mr).map convertItem)) :: st.cache,
             now2 + dt⟩ =
          ((raw.take mr).map convertItem,
           ⟨((q, mr), (now2, (raw.take mr).map convertItem)) :: st.cache,
            now2 + dt⟩, ⟨0, 0⟩)) := by
  obtain ⟨now2, hle2, heq⟩ := searchLoop_success primary fb q mr n k raw hk
    hfail hsucc (n - 1) (by omega) (by omega) st ⟨0, 0⟩
  rw [show n - 1 + 1 = n from by omega] at heq
  refine ⟨now2, hle2, ?_, ?_, ?_⟩
  · simp only [search_web, getFromCache, hmiss]
    rw [heq]
    simp [Nat.sub_self]
  · simp only [List.length_map, List.length_take]
    exact Nat.min_le_left _ _
  · intro p2 fb2 n2 dt hdt
    have hcond : ¬(CACHE_TTL_SECONDS < dt) := by omega
    simp [search_web, getFromCache, cacheFind, hcond]

/-- C8 witness: the amended theorem applied to a provider that times out
once and then succeeds with one raw item. -/
theorem C8_primary_success_caches_witness :
    ∃ now2 : Nat, wst0.now ≤ now2 ∧
      search_web (fun i => if i = 0 then Attempt.timeoutExc
          else Attempt.okJson [rawItem1]) .raiseExc ['q'] 5 3 wst0 =
        ((([rawItem1].take 5).map convertItem),
         ⟨((['q'], 5), (now2, ([rawItem1].take 5).map convertItem)) :: wst0.cache,
          now2⟩, ⟨2, 0⟩) ∧
      ((([rawItem1].take 5).map convertItem)).length ≤ 5 ∧
      (∀ (primary2 : Nat → Attempt) (fb2 : FallbackB) (n2 dt : Nat),
        dt ≤ CACHE_TTL_SECONDS →
        search_web primary2 fb2 ['q'] 5 n2
            ⟨((['q'], 5), (now2, ([rawItem1].take 5).map convertItem)) ::
              wst0.cache, now2 + dt⟩ =
          (([rawItem1].take 5).map convertItem,
           ⟨((['q'], 5), (now2, ([rawItem1].take 5).map convertItem)) ::
             wst0.cache, now2 + dt⟩, ⟨0, 0⟩)) :=
  C8_primary_success_caches
    (fun i => if i = 0 then Attempt.timeoutExc else Attempt.okJson [rawItem1])
    .raiseExc ['q'] 5 3 1 [rawItem1] wst0 (by omega)
    (fun i hi => by
      have h0 : i = 0 := by omega
      subst h0
      rfl)
    rfl rfl

/-! ### C6: the two-pass web_search protocol -/

/-- C6 counterexample: the first response carries a web_search directive
and the second response carries a trailing save_note directive.  The call
makes exactly two model calls and strips the second directive from the
reply, but the returned action is None: the second directive is discarded,
not dispatched (synchronously or otherwise). -/
theorem C6_counterexample :
    handle_user_message cLlm (fun _ => []) =
      .ok ({ reply := "Feito.".toList, action := none, used_search := true,
             search_results := some [] }, 2) ∧
    parse_action (cLlm 1) = some saveNoteDirective :=
  ⟨rfl, rfl⟩

/-- C6 (amended): whenever the first model response carries a web_search
directive (with absent or dict-valued args), exactly one additional model
call is made - two in total, never a third; the second response is passed
once through the ACTION-line stripper, whose result is the final reply;
and any directive in the second response is discarded without dispatch:
the returned action is None. -/
theorem C6_two_model_calls (llm : Nat → List Char)
    (webSearch : List Char → List (List Char)) (kvs : List (List Char × Json))
    (hp : parse_action (llm 0) = some (.obj kvs))
    (htool : jLookup (.obj kvs) toolK = some (.str webSearchS))
    (hargs : (jLookup (.obj kvs) argsK = none) ∨
      ∃ akvs, jLookup (.obj kvs) argsK = some (.obj akvs)) :
    handle_user_message llm webSearch =
      .ok ({ reply := strip_action_line (llm 1), action := none,
             used_search := true,
             search_results := some (webSearch (queryOfDirective (.obj kvs))) },
           2) := by
  have hkvs : jTruthy (.obj kvs) = true := by
    cases kvs with
    | nil => simp [jLookup, jLookup.go] at htool
    | cons kv rest => rfl
  obtain ⟨akvs, hak⟩ : ∃ akvs,
      ((jLookup (.obj kvs) argsK).getD (.obj [])) = .obj akvs := by
    rcases hargs with h | ⟨akvs, h⟩
    · exact ⟨[], by rw [h]; rfl⟩
    · exact ⟨akvs, by rw [h]; rfl⟩
  by_cases hE : pyStrip (strip_action_line (llm 0)) = [] <;>
    simp [handle_user_message, hp, actTruthy, hkvs, hE, toolNameOf,
      pyDictGet, htool, hak, jEqStr, queryOfDirective]

/-- C6 witness: the amended theorem applied at the concrete oracle. -/
theorem C6_two_model_calls_witness :
    handle_user_message cLlm (fun _ => []) =
      .ok ({ reply := strip_action_line (cLlm 1), action := none,
             used_search := true,
             search_results := some ((fun _ => ([] : List (List Char)))
               (queryOfDirective (.obj [(toolK, .str webSearchS),
                 (argsK, .obj [(queryK, .str ['r'])])]))) }, 2) :=
  C6_two_model_calls cLlm (fun _ => [])
    [(toolK, .str webSearchS), (argsK, .obj [(queryK, .str ['r'])])]
    rfl rfl (Or.inr ⟨[(queryK, .str ['r'])], rfl⟩)

/-! ### C1: the brace-balance scans of the two marker branches -/

theorem indexOfSub_zero (pat s : List Char) (h : startsWithL pat s = true) :
    indexOfSub? pat s = some 0 := by
  cases s with
  | nil => simp [indexOfSub?, h]
  | cons c rest => simp [indexOfSub?, h]

theorem parseStr_quote (r : List Char) : parseStr ('"' :: r) = some ([], r) := by
  unfold parseStr
  simp

theorem parseStr_cons (c : Char) (r : List Char) (h1 : ¬c = '"')
    (h2 : ¬c = '\\') (h3 : ¬c.toNat < 32) :
    parseStr (c :: r) = (parseStr r).map (fun p => (c :: p.1, p.2)) := by
  conv_lhs => unfold parseStr
  rw [if_neg h1, if_neg h2, if_neg h3]

/-- A quote-free, backslash-free, control-free string body parses up to
the closing quote. -/
theorem parseStr_good (v r : List Char) (h : ∀ c ∈ v, goodChar c = true) :
    parseStr (v ++ '"' :: r) = some (v, r) := by
  induction v with
  | nil => simpa using parseStr_quote r
  | cons c rest ih =>
    have hc := h c (by simp)
    simp only [goodChar, Bool.and_eq_true, Bool.not_eq_true'] at hc
    obtain ⟨⟨hc1, hc2⟩, hc3⟩ := hc
    have h2 : ∀ d ∈ rest, goodChar d = true := fun d hd => h d (by simp [hd])
    rw [List.cons_append, parseStr_cons c _ (of_decide_eq_false hc1)
      (of_decide_eq_false hc2) (of_decide_eq_false hc3), ih h2]
    rfl

/-- Inside a string literal the aware scan skips quote-free,
backslash-free content without touching the balance. -/
theorem aware_skip_string (v : List Char) (cnt : Int) (i : Nat)
    (h : ∀ c ∈ v, goodChar c = true) :
    v.foldl awareStep ⟨cnt, true, false, i, none⟩ =
      ⟨cnt, true, false, i + v.length, none⟩ := by
  induction v generalizing i with
  | nil => simp
  | cons c rest ih =>
    have hc := h c (by simp)
    simp only [goodChar, Bool.and_eq_true, Bool.not_eq_true'] at hc
    obtain ⟨⟨hc1, hc2⟩, _⟩ := hc
    have h2 : ∀ d ∈ rest, goodChar d = true := fun d hd => h d (by simp [hd])
    have hstep : awareStep ⟨cnt, true, false, i, none⟩ c =
        ⟨cnt, true, false, i + 1, none⟩ := by
      simp [awareStep, of_decide_eq_false hc1, of_decide_eq_false hc2]
    rw [List.foldl_cons, hstep, ih (i + 1) h2, List.length_cons]
    congr 1
    omega

/-- The closing quote and two closing braces finish the aware scan at the
end of the span. -/
theorem aware_post (i : Nat) :
    List.foldl awareStep ⟨2, true, false, i, none⟩ ['"', '}', '}'] =
      ⟨0, false, false, i + 3, some (i + 3)⟩ := by
  have h1 : awareStep ⟨2, true, false, i, none⟩ '"' =
      ⟨2, false, false, i + 1, none⟩ := by
    simp [awareStep]
  have h2 : awareStep ⟨2, false, false, i + 1, none⟩ '}' =
      ⟨1, false, false, i + 2, none⟩ := by
    simp [awareStep]
  have h3 : awareStep ⟨1, false, false, i + 2, none⟩ '}' =
      ⟨0, false, false, i + 3, some (i + 3)⟩ := by
    simp [awareStep]
  simp [List.foldl_cons, h1, h2, h3]

/-- The aware scan of the C1 payload ends exactly at its length. -/
theorem scanAware_c1 (v : List Char) (h : ∀ c ∈ v, goodChar c = true) :
    scanAware ((c1Pre ++ v) ++ c1Post) = 29 + v.length + 3 := by
  have hpre : c1Pre.foldl awareStep initBr = ⟨2, true, false, 29, none⟩ := by
    rfl
  unfold scanAware
  rw [List.foldl_append, List.foldl_append, hpre,
    aware_skip_string v 2 29 h]
  show (BrState.out (List.foldl awareStep ⟨2, true, false, 29 + v.length, none⟩
    ['"', '}', '}'])).getD 0 = 29 + v.length + 3
  rw [aware_post]
  rfl

/-- The C1 payload parses with six units of fuel. -/
theorem parseValue6 (v : List Char) (h : ∀ c ∈ v, goodChar c = true) :
    parseValue 6 ((c1Pre ++ v) ++ c1Post) = some (c1Directive v, []) := by
  have hv := parseStr_good v ['}', '}'] h
  simp only [c1Pre, c1Post, c1Directive, toolK, argsK, List.cons_append,
    List.nil_append, List.append_assoc]
  simp [parseValue, parseMembers, parseStr_quote, parseStr_cons, skipWs,
    isJsonWs, objInsert, hv]

theorem parse_mono_step (g : Nat) :
    (∀ s r, parseValue g s = some r → parseValue (g + 1) s = some r) ∧
    (∀ s acc r, parseMembers g s acc = some r → parseMembers (g + 1) s acc = some r) ∧
    (∀ s acc r, parseItems g s acc = some r → parseItems (g + 1) s acc = some r) := by
  induction g with
  | zero =>
    refine ⟨?_, ?_, ?_⟩
    · intro s r h; simp [parseValue] at h
    · intro s acc r h; simp [parseMembers] at h
    · intro s acc r h; simp [parseItems] at h
  | succ g ih =>
    obtain ⟨ihV, ihM, ihI⟩ := ih
    refine ⟨?_, ?_, ?_⟩
    · intro s r h
      cases s with
      | nil => simp [parseValue] at h
      | cons c rest =>
        simp only [parseValue] at h ⊢
        by_cases h1 : c = '{'
        · rw [if_pos h1] at h ⊢
          split at h
          · exact h
          · exact ihM _ _ _ h
        · rw [if_neg h1] at h ⊢
          by_cases h2 : c = '['
          · rw [if_pos h2] at h ⊢
            split at h
            · exact h
            · exact ihI _ _ _ h
          · rw [if_neg h2] at h ⊢
            by_cases h3 : c = '"'
            · rw [if_pos h3] at h ⊢
              exact h
            · rw [if_neg h3] at h ⊢
              split_ifs at h ⊢ <;> exact h
    · intro s acc r h
      simp only [parseMembers] at h ⊢
      split at h
      · split at h
        · split at h
          · cases hpv : parseValue g (skipWs _) with
            | none => rw [hpv] at h; simp at h
            | some vr =>
              obtain ⟨v, r3⟩ := vr
              rw [hpv] at h
              rw [ihV _ _ hpv]
              simp only [] at h ⊢
              split at h
              · exact ihM _ _ _ h
              · exact h
              · simp at h
          · simp at h
        · simp at h
      · simp at h
    · intro s acc r h
      simp only [parseItems] at h ⊢
      cases hpv : parseValue g s with
      | none => rw [hpv] at h; simp at h
      | some vr =>
        obtain ⟨v, r1⟩ := vr
        rw [hpv] at h
        rw [ihV _ _ hpv]
        simp only [] at h ⊢
        split at h
        · exact ihI _ _ _ h
        · exact h
        · simp at h


theorem parseValue_le_mono (f f' : Nat) (hle : f ≤ f') (s : List Char)
    (r : Json × List Char) (hp : parseValue f s = some r) :
    parseValue f' s = some r := by
  obtain ⟨d, rfl⟩ := Nat.exists_eq_add_of_le hle
  induction d with
  | zero => exact hp
  | succ d ih =>
    exact (parse_mono_step (f + d)).1 s r (ih (Nat.le_add_right f d))

/-- json.loads accepts the C1 payload whole. -/
theorem jsonLoads_c1 (v : List Char) (h : ∀ c ∈ v, goodChar c = true) :
    jsonLoads ((c1Pre ++ v) ++ c1Post) = .ok (c1Directive v) := by
  have hcp : c1Pre = '{' :: c1Pre.tail := rfl
  have hskip : skipWs ((c1Pre ++ v) ++ c1Post) = (c1Pre ++ v) ++ c1Post := by
    rw [hcp, List.cons_append, List.cons_append]
    simp [skipWs, isJsonWs]
  have hlen : 6 ≤ ((c1Pre ++ v) ++ c1Post).length + 1 := by
    simp [c1Pre, c1Post, List.length_append]
  have h6 := parseValue_le_mono 6 (((c1Pre ++ v) ++ c1Post).length + 1) hlen
    ((c1Pre ++ v) ++ c1Post) (c1Directive v, []) (parseValue6 v h)
  unfold jsonLoads
  rw [hskip, h6]
  rfl

/-- C1, counterexample: with braces hidden inside a string value of the
payload, the localized marker branch (naive scan) yields no directive
while the English marker branch (string-aware scan) parses it. -/
theorem C1_counterexample :
    parse_action acaoBraceText = none ∧
      parse_action actionBraceText = some braceDirective := ⟨rfl, rfl⟩

/-- C1, amended: only the ACTION: branch extracts the directive with a
string-aware brace scan: for every args string value v free of quotes,
backslashes and control characters - braces allowed - the directive
ACTION: {"tool": "x", "args": {"a": "v"}} parses to the directive with v
intact. -/
theorem C1_string_aware_action_scan (v : List Char)
    (h : ∀ c ∈ v, goodChar c = true) :
    parse_action (c1Text v) = some (c1Directive v) := by
  have hcp : c1Pre = '{' :: c1Pre.tail := rfl
  have hpayload_len : ((c1Pre ++ v) ++ c1Post).length = 29 + v.length + 3 := by
    simp [c1Pre, c1Post, List.length_append]
    omega
  have hmA : List.map upperChar actionM = actionM := rfl
  have hup : pyUpper (c1Text v) =
      actionM ++ List.map upperChar (' ' :: ((c1Pre ++ v) ++ c1Post)) := by
    simp only [c1Text, pyUpper, List.map_append, hmA]
  have hsw : startsWithL actionM (pyUpper (c1Text v)) = true := by
    rw [hup]; exact startsWithL_refl_append _ _
  have hcontains : containsSub actionM (pyUpper (c1Text v)) = true :=
    containsSub_of_startsWith _ _ hsw
  have hidx : indexOfSub? actionM (pyUpper (c1Text v)) = some 0 :=
    indexOfSub_zero _ _ hsw
  have hdrop : (c1Text v).drop 7 = ' ' :: ((c1Pre ++ v) ++ c1Post) := by
    show (actionM ++ ' ' :: ((c1Pre ++ v) ++ c1Post)).drop 7 = _
    exact List.drop_left actionM (' ' :: ((c1Pre ++ v) ++ c1Post))
  have hstripL : pyStripL (' ' :: ((c1Pre ++ v) ++ c1Post)) =
      (c1Pre ++ v) ++ c1Post := by
    have h1 : pyStripL (' ' :: ((c1Pre ++ v) ++ c1Post)) =
        pyStripL ((c1Pre ++ v) ++ c1Post) := by
      simp [pyStripL, isPyWs]
    rw [h1, hcp, List.cons_append, List.cons_append]
    exact pyStripL_of_head _ _ (by decide)
  have hstripR : pyStripR ((c1Pre ++ v) ++ c1Post) = (c1Pre ++ v) ++ c1Post := by
    have h1 : pyStripR c1Post = c1Post := rfl
    rw [pyStripR_append_of_ne _ _ (by rw [h1]; decide), h1]
  have hstrip : pyStrip (' ' :: ((c1Pre ++ v) ++ c1Post)) =
      (c1Pre ++ v) ++ c1Post := by
    unfold pyStrip
    rw [hstripL, hstripR]
  have hfix : fixLeadBraces ((c1Pre ++ v) ++ c1Post) = (c1Pre ++ v) ++ c1Post := by
    unfold fixLeadBraces
    rw [if_neg ?hc]
    case hc =>
      rw [hcp, List.cons_append, List.cons_append]
      rw [show c1Pre.tail = '"' :: c1Pre.tail.tail from rfl,
        List.cons_append, List.cons_append]
      simp [startsWithL]
  have hsw1 : startsWithL ['{'] ((c1Pre ++ v) ++ c1Post) = true := by
    rw [hcp, List.cons_append, List.cons_append]
    simp [startsWithL]
  have hscan : scanAware ((c1Pre ++ v) ++ c1Post) = 29 + v.length + 3 :=
    scanAware_c1 v h
  have htake : ((c1Pre ++ v) ++ c1Post).take (29 + v.length + 3) =
      (c1Pre ++ v) ++ c1Post := by
    rw [← hpayload_len]
    exact List.take_length _
  have hparse : tryParse2 ((c1Pre ++ v) ++ c1Post) = .ok (c1Directive v) := by
    unfold tryParse2
    rw [jsonLoads_c1 v h]
  have hbc : branchCore scanAware ((c1Pre ++ v) ++ c1Post) =
      .ok (some (c1Directive v)) := by
    simp only [branchCore, hsw1, if_true, hscan]
    rw [if_pos (by omega), htake, hparse]
    rfl
  have hbody : actionBranchBody (c1Text v) (pyUpper (c1Text v)) =
      .ok (some (c1Directive v)) := by
    simp only [actionBranchBody, hidx, Option.getD_some, Nat.zero_add]
    rw [hdrop, hstrip, hfix]
    exact hbc
  simp only [parse_action, parse_action_exc, hcontains, if_true, hbody]

/-- C1 witness: the amended theorem at v = "}". -/
theorem C1_string_aware_action_scan_witness :
    (∀ c ∈ ['}'], goodChar c = true) ∧
      parse_action (c1Text ['}']) = some (c1Directive ['}']) :=
  ⟨by decide, C1_string_aware_action_scan ['}'] (by decide)⟩

end VA
